import Mathlib

/-!
Verification of the session-synchronization engine of the codex-discord bridge.

The development shallowly embeds the TypeScript sources:
  * `src/codex/session-watcher.ts` — the log tailer (`processUpdate`);
  * `src/utils/constants.ts`       — `splitMessage`;
  * `src/storage/repositories.ts` / `src/storage/database.ts` — the mapping
    store (`ProjectRepo`, `ThreadRepo`, startup reconciliation);
  * `src/bot/client.ts`            — the sync coordinator
    (`handleSessionUpdate`, buffering, stale-project cleanup);
  * `src/sync/message-sync.ts`     — the echo suppressor;
  * `src/codex/session-scanner.ts` — the JSONL event extractors.

Strings are modelled as `List Char` (JS strings are sequences of code units;
none of the verified properties depend on UTF-16 details).  JavaScript's
`JSON.parse` is modelled by a total, fuel-indexed recursive-descent parser
over the RFC 8259 grammar.
-/

namespace CodexDiscord

/-! ## Character classes and basic string operations -/

/-- JavaScript whitespace as used by `String.prototype.trim` / `trimStart`.
The full JS class also contains the Unicode space separators; the embedding
keeps the ASCII part plus NBSP, which is what the repository's inputs use. -/
def jsWhitespace (c : Char) : Bool :=
  c = ' ' || c = '\t' || c = '\n' || c = '\r' || c = '\x0b' || c = '\x0c' || c = '\xa0'

/-- JS `String.prototype.trimStart`. -/
def jsTrimStart (s : List Char) : List Char :=
  s.dropWhile jsWhitespace

/-- JS `String.prototype.trim` (both ends). -/
def jsTrim (s : List Char) : List Char :=
  ((s.dropWhile jsWhitespace).reverse.dropWhile jsWhitespace).reverse

/-- A line is blank when its `trim()` is empty; `processUpdate` and
`handleSessionUpdate` filter such lines out. -/
def isBlank (s : List Char) : Bool :=
  (jsTrim s).isEmpty

/-- `text.replace(/\r\n?/g, "\n")` — newline normalization used by
`coerceText` / `normalizeText` in the sources. -/
def normNewlines : List Char → List Char
  | [] => []
  | '\r' :: '\n' :: rest => '\n' :: normNewlines rest
  | '\r' :: rest => '\n' :: normNewlines rest
  | c :: rest => c :: normNewlines rest

/-- `s.startsWith(p)` for char lists. -/
def listStartsWith : List Char → List Char → Bool
  | _, [] => true
  | [], _ :: _ => false
  | c :: s, p :: ps => c = p && listStartsWith s ps

/-- `s.endsWith(p)` for char lists. -/
def listEndsWith (s p : List Char) : Bool :=
  listStartsWith s.reverse p.reverse

/-! ## Splitting on newlines

`linesAndRest s` returns the list of complete (newline-terminated) lines of
`s` together with the fragment after the last newline.  JavaScript's
`s.split("\n")` equals `(linesAndRest s).1 ++ [(linesAndRest s).2]`. -/

def linesAndRest : List Char → List (List Char) × List Char
  | [] => ([], [])
  | c :: rest =>
    let p := linesAndRest rest
    if c = '\n' then ([] :: p.1, p.2)
    else
      match p.1 with
      | [] => ([], c :: p.2)
      | l :: ls => ((c :: l) :: ls, p.2)

/-- JS `s.split("\n")`. -/
def jsSplitNewline (s : List Char) : List (List Char) :=
  (linesAndRest s).1 ++ [(linesAndRest s).2]

theorem linesAndRest_rest_no_nl (s : List Char) : '\n' ∉ (linesAndRest s).2 := by
  induction s with
  | nil => simp [linesAndRest]
  | cons c rest ih =>
    by_cases hc : c = '\n'
    · simpa [linesAndRest, hc] using ih
    · cases hp : (linesAndRest rest).1 with
      | nil =>
        simp only [linesAndRest, if_neg hc, hp]
        intro h
        rcases List.mem_cons.mp h with h | h
        · exact hc h.symm
        · exact ih h
      | cons l ls =>
        simpa [linesAndRest, hc, hp] using ih

theorem linesAndRest_of_no_nl (s : List Char) (h : '\n' ∉ s) :
    linesAndRest s = ([], s) := by
  induction s with
  | nil => simp [linesAndRest]
  | cons c rest ih =>
    have hc : c ≠ '\n' := fun hh => h (hh ▸ List.mem_cons_self c rest)
    have hrest : '\n' ∉ rest := fun hh => h (List.mem_cons_of_mem _ hh)
    simp [linesAndRest, hc, ih hrest]

/-- Gluing helper for the append homomorphism: the first line of `b` is the
continuation of the trailing fragment of `a`. -/
def glueLines (ra : List Char) : List (List Char) → List (List Char)
  | [] => []
  | l :: ls => (ra ++ l) :: ls

theorem glueLines_nil (ls : List (List Char)) : glueLines [] ls = ls := by
  cases ls <;> simp [glueLines]

theorem linesAndRest_append_fst (a b : List Char) :
    (linesAndRest (a ++ b)).1
      = (linesAndRest a).1 ++ glueLines (linesAndRest a).2 (linesAndRest b).1 := by
  induction a with
  | nil => simp [linesAndRest, glueLines_nil]
  | cons c a' ih =>
    by_cases hc : c = '\n'
    · subst hc
      simp [linesAndRest, ih]
    · cases ha : (linesAndRest a').1 with
      | nil =>
        cases hb : (linesAndRest b).1 with
        | nil => simp [linesAndRest, hc, ih, ha, hb, glueLines]
        | cons l ls => simp [linesAndRest, hc, ih, ha, hb, glueLines]
      | cons l ls =>
        cases hb : (linesAndRest b).1 with
        | nil => simp [linesAndRest, hc, ih, ha, hb, glueLines]
        | cons l2 ls2 => simp [linesAndRest, hc, ih, ha, hb, glueLines]

theorem linesAndRest_append_snd (a b : List Char) :
    (linesAndRest (a ++ b)).2
      = if (linesAndRest b).1 = [] then (linesAndRest a).2 ++ (linesAndRest b).2
        else (linesAndRest b).2 := by
  induction a with
  | nil => cases hb : (linesAndRest b).1 <;> simp [linesAndRest, hb]
  | cons c a' ih =>
    have hfst := linesAndRest_append_fst a' b
    by_cases hc : c = '\n'
    · subst hc
      cases hb : (linesAndRest b).1 <;> simp_all [linesAndRest]
    · cases ha : (linesAndRest a').1 with
      | nil =>
        cases hb : (linesAndRest b).1 with
        | nil => simp_all [linesAndRest, hc, glueLines]
        | cons l ls => simp_all [linesAndRest, hc, glueLines]
      | cons l ls =>
        cases hb : (linesAndRest b).1 with
        | nil => simp_all [linesAndRest, hc, glueLines]
        | cons l2 ls2 => simp_all [linesAndRest, hc, glueLines]

/-- Peeling off the already-complete lines of `a`: the lines of `a ++ b` are
the lines of `a` followed by the lines of `rest(a) ++ b`, and the trailing
fragments agree. -/
theorem linesAndRest_peel_fst (a b : List Char) :
    (linesAndRest (a ++ b)).1
      = (linesAndRest a).1 ++ (linesAndRest ((linesAndRest a).2 ++ b)).1 := by
  have hra := linesAndRest_of_no_nl (linesAndRest a).2 (linesAndRest_rest_no_nl a)
  rw [linesAndRest_append_fst a b, linesAndRest_append_fst (linesAndRest a).2 b, hra]
  simp

theorem linesAndRest_peel_snd (a b : List Char) :
    (linesAndRest (a ++ b)).2 = (linesAndRest ((linesAndRest a).2 ++ b)).2 := by
  have hra := linesAndRest_of_no_nl (linesAndRest a).2 (linesAndRest_rest_no_nl a)
  rw [linesAndRest_append_snd a b, linesAndRest_append_snd (linesAndRest a).2 b, hra]

/-! ## JSON values and a model of JavaScript's `JSON.parse`

`session-watcher.ts` calls `JSON.parse` to test whether a trailing fragment
is already a complete record, and `client.ts` / `session-scanner.ts` parse
each JSONL line into a value before extracting texts.  The parser below is a
total, fuel-indexed recursive descent over the RFC 8259 grammar; `jsonOk`
holds exactly when `JSON.parse` would succeed. -/

inductive Json where
  | null
  | bool (b : Bool)
  | num (raw : List Char)
  | str (s : List Char)
  | arr (elems : List Json)
  | obj (fields : List (List Char × Json))

/-- JSON insignificant whitespace (RFC 8259): space, tab, LF, CR. -/
def jsonWs (c : Char) : Bool :=
  c = ' ' || c = '\t' || c = '\n' || c = '\r'

def skipJsonWs (s : List Char) : List Char :=
  s.dropWhile jsonWs

def isJsonDigit (c : Char) : Bool :=
  '0' ≤ c && c ≤ '9'

def hexDigitVal (c : Char) : Option Nat :=
  let n := c.toNat
  if 48 ≤ n ∧ n ≤ 57 then some (n - 48)
  else if 97 ≤ n ∧ n ≤ 102 then some (n - 87)
  else if 65 ≤ n ∧ n ≤ 70 then some (n - 55)
  else none

/-- Decode a single-character escape (everything except `\uXXXX`). -/
def jsonEscapeChar : Char → Option Char
  | '"' => some '"'
  | '\\' => some '\\'
  | '/' => some '/'
  | 'b' => some '\x08'
  | 'f' => some '\x0c'
  | 'n' => some '\n'
  | 'r' => some '\r'
  | 't' => some '\t'
  | _ => none

/-- Parse the body of a JSON string after the opening quote: decodes escape
sequences, rejects raw control characters, stops at the closing quote.
Returns the decoded text and the remaining input. -/
def jsonStringRest (acc : List Char) : List Char → Option (List Char × List Char)
  | [] => none
  | '"' :: rest => some (acc.reverse, rest)
  | '\\' :: 'u' :: a :: b :: c :: d :: rest =>
    match hexDigitVal a, hexDigitVal b, hexDigitVal c, hexDigitVal d with
    | some va, some vb, some vc, some vd =>
      jsonStringRest (Char.ofNat (((va * 16 + vb) * 16 + vc) * 16 + vd) :: acc) rest
    | _, _, _, _ => none
  | '\\' :: e :: rest =>
    match jsonEscapeChar e with
    | some ch => jsonStringRest (ch :: acc) rest
    | none => none
  | ['\\'] => none
  | c :: rest => if c.toNat < 32 then none else jsonStringRest (c :: acc) rest

/-- Integer part of a JSON number: `0`, or a nonzero digit followed by
digits (leading zeros are rejected, as by `JSON.parse`). -/
def jsonIntPart : List Char → Option (List Char × List Char)
  | '0' :: r => some (['0'], r)
  | c :: r =>
    if '1' ≤ c && c ≤ '9' then
      some ((c :: r).takeWhile isJsonDigit, (c :: r).dropWhile isJsonDigit)
    else none
  | [] => none

/-- Optional fraction part: `.` followed by one or more digits. -/
def jsonFracPart (s : List Char) : Option (List Char × List Char) :=
  match s with
  | '.' :: r =>
    let ds := r.takeWhile isJsonDigit
    if ds.isEmpty then none else some ('.' :: ds, r.dropWhile isJsonDigit)
  | _ => some ([], s)

/-- Optional exponent part: `e`/`E`, optional sign, one or more digits. -/
def jsonExpPart (s : List Char) : Option (List Char × List Char) :=
  match s with
  | c :: r =>
    if c = 'e' || c = 'E' then
      let (sg, r1) :=
        match r with
        | '+' :: r' => (['+'], r')
        | '-' :: r' => (['-'], r')
        | _ => (([] : List Char), r)
      let ds := r1.takeWhile isJsonDigit
      if ds.isEmpty then none
      else some (c :: (sg ++ ds), r1.dropWhile isJsonDigit)
    else some ([], s)
  | [] => some ([], s)

/-- A complete JSON number literal; returns its raw text and the rest. -/
def jsonNumberLit (s : List Char) : Option (List Char × List Char) :=
  let (sg, s1) :=
    match s with
    | '-' :: r => ((['-'] : List Char), r)
    | _ => ([], s)
  match jsonIntPart s1 with
  | none => none
  | some (ip, s2) =>
    match jsonFracPart s2 with
    | none => none
    | some (fp, s3) =>
      match jsonExpPart s3 with
      | none => none
      | some (ep, s4) => some (sg ++ ip ++ fp ++ ep, s4)

mutual

/-- One JSON value (no leading whitespace); fuel makes the recursion total. -/
def jsonValue : Nat → List Char → Option (Json × List Char)
  | 0, _ => none
  | fuel + 1, s =>
    match s with
    | [] => none
    | 'n' :: 'u' :: 'l' :: 'l' :: r => some (.null, r)
    | 't' :: 'r' :: 'u' :: 'e' :: r => some (.bool true, r)
    | 'f' :: 'a' :: 'l' :: 's' :: 'e' :: r => some (.bool false, r)
    | '"' :: r =>
      match jsonStringRest [] r with
      | some (txt, r1) => some (.str txt, r1)
      | none => none
    | '[' :: r =>
      match skipJsonWs r with
      | ']' :: r1 => some (.arr [], r1)
      | s1 =>
        match jsonElems fuel s1 with
        | some (es, r1) => some (.arr es, r1)
        | none => none
    | '\x7b' :: r =>
      match skipJsonWs r with
      | '\x7d' :: r1 => some (.obj [], r1)
      | s1 =>
        match jsonFields fuel s1 with
        | some (fs, r1) => some (.obj fs, r1)
        | none => none
    | c :: r =>
      if c = '-' || isJsonDigit c then
        match jsonNumberLit (c :: r) with
        | some (raw, r1) => some (.num raw, r1)
        | none => none
      else none

/-- One or more comma-separated array elements, ending at `]`. -/
def jsonElems : Nat → List Char → Option (List Json × List Char)
  | 0, _ => none
  | fuel + 1, s =>
    match jsonValue fuel (skipJsonWs s) with
    | none => none
    | some (v, r) =>
      match skipJsonWs r with
      | ',' :: r1 =>
        match jsonElems fuel r1 with
        | some (vs, r2) => some (v :: vs, r2)
        | none => none
      | ']' :: r1 => some ([v], r1)
      | _ => none

/-- One or more comma-separated object members, ending at the closing brace. -/
def jsonFields : Nat → List Char → Option (List (List Char × Json) × List Char)
  | 0, _ => none
  | fuel + 1, s =>
    match skipJsonWs s with
    | '"' :: r =>
      match jsonStringRest [] r with
      | none => none
      | some (k, r1) =>
        match skipJsonWs r1 with
        | ':' :: r2 =>
          match jsonValue fuel (skipJsonWs r2) with
          | none => none
          | some (v, r3) =>
            match skipJsonWs r3 with
            | ',' :: r4 =>
              match jsonFields fuel r4 with
              | some (fs, r5) => some ((k, v) :: fs, r5)
              | none => none
            | '\x7d' :: r4 => some ([(k, v)], r4)
            | _ => none
        | _ => none
    | _ => none

end

/-- `JSON.parse(s)` succeeding with value `v` is modelled by
`jsonParse s = some v`: skip surrounding whitespace, parse one value,
require full consumption.  The fuel `2 * s.length + 2` dominates the
recursion depth of any parse of `s`. -/
def jsonParse (s : List Char) : Option Json :=
  match jsonValue (2 * s.length + 2) (skipJsonWs s) with
  | some (v, r) => if skipJsonWs r = [] then some v else none
  | none => none

/-- Whether `JSON.parse` succeeds — the test `session-watcher.ts` applies to
a trailing fragment. -/
def jsonOk (s : List Char) : Bool :=
  (jsonParse s).isSome

theorem jsonValue_nil (f : Nat) : jsonValue f [] = none := by
  cases f <;> rfl

theorem jsonValue_vt (f : Nat) (r : List Char) : jsonValue f ('\x0b' :: r) = none := by
  cases f <;> rfl

theorem jsonValue_ff (f : Nat) (r : List Char) : jsonValue f ('\x0c' :: r) = none := by
  cases f <;> rfl

theorem jsonValue_nbsp (f : Nat) (r : List Char) : jsonValue f ('\xa0' :: r) = none := by
  cases f <;> rfl

theorem dropWhile_head_false {p : Char → Bool} {l r : List Char} {c : Char}
    (h : l.dropWhile p = c :: r) : p c = false := by
  induction l with
  | nil => simp at h
  | cons a l ih =>
    rw [List.dropWhile_cons] at h
    by_cases hp : p a
    · rw [if_pos hp] at h
      exact ih h
    · rw [if_neg hp] at h
      injection h with h1 _
      subst h1
      simpa using hp

/-- A whitespace-only string is not valid JSON — `JSON.parse("  ")` throws.
Consequently a trailing fragment that is early-emitted by the tailer always
survives the blank-line filter. -/
theorem jsonOk_of_blank (s : List Char) (h : isBlank s = true) : jsonOk s = false := by
  have hall : ∀ c ∈ s, jsWhitespace c = true := by
    have h1 : (((s.dropWhile jsWhitespace).reverse.dropWhile jsWhitespace)) = [] := by
      have := h
      simp only [isBlank, jsTrim, List.isEmpty_iff] at this
      simpa using congrArg List.reverse this
    have h2 : ∀ c ∈ (s.dropWhile jsWhitespace).reverse, jsWhitespace c = true :=
      List.dropWhile_eq_nil_iff.mp h1
    intro c hc
    rcases (List.takeWhile_append_dropWhile (p := jsWhitespace) (l := s)) ▸ hc with hsplit
    rcases List.mem_append.mp hsplit with hl | hr
    · exact List.mem_takeWhile_imp hl
    · exact h2 c (List.mem_reverse.mpr hr)
  have hmem : ∀ c ∈ skipJsonWs s, jsWhitespace c = true := by
    intro c hc
    exact hall c ((List.dropWhile_sublist (p := jsonWs) (l := s)).mem hc)
  simp only [jsonOk, jsonParse]
  cases hs : skipJsonWs s with
  | nil => simp [jsonValue_nil]
  | cons c r =>
    have hcw : jsWhitespace c = true := hmem c (hs ▸ List.mem_cons_self c r)
    have hcj : jsonWs c = false := dropWhile_head_false hs
    have : c = '\x0b' ∨ c = '\x0c' ∨ c = '\xa0' := by
      simp only [jsWhitespace, Bool.or_eq_true, decide_eq_true_eq] at hcw
      simp only [jsonWs, Bool.or_eq_false_iff, decide_eq_false_iff_not] at hcj
      tauto
    rcases this with hc | hc | hc <;> subst hc
    · simp [jsonValue_vt]
    · simp [jsonValue_ff]
    · simp [jsonValue_nbsp]

/-! ## More structure lemmas for `linesAndRest` -/

theorem linesAndRest_join (s : List Char) :
    ((linesAndRest s).1.map (fun l => l ++ ['\n'])).flatten ++ (linesAndRest s).2 = s := by
  induction s with
  | nil => simp [linesAndRest]
  | cons c rest ih =>
    by_cases hc : c = '\n'
    · subst hc
      simpa [linesAndRest] using ih
    · cases hp : (linesAndRest rest).1 with
      | nil =>
        rw [hp] at ih
        simp only [List.map_nil, List.flatten_nil, List.nil_append] at ih
        simp [linesAndRest, hc, hp, ih]
      | cons l ls =>
        rw [hp] at ih
        simp only [linesAndRest, if_neg hc, hp]
        simpa using ih

/-- `s.endsWith("\n")` for char lists. -/
def endsWithNl (s : List Char) : Bool :=
  s.getLast? = some '\n'

/-- One-step unfolding of `linesAndRest` (kept folded on the tail). -/
theorem linesAndRest_cons (c : Char) (rest : List Char) :
    linesAndRest (c :: rest) =
      if c = '\n' then ([] :: (linesAndRest rest).1, (linesAndRest rest).2)
      else
        match (linesAndRest rest).1 with
        | [] => ([], c :: (linesAndRest rest).2)
        | l :: ls => ((c :: l) :: ls, (linesAndRest rest).2) := rfl

theorem rest_nil_of_endsWithNl (s : List Char) (h : endsWithNl s = true) :
    (linesAndRest s).2 = [] := by
  induction s with
  | nil => simp [endsWithNl] at h
  | cons c rest ih =>
    cases hr : rest with
    | nil =>
      subst hr
      have hc : c = '\n' := by simpa [endsWithNl] using h
      subst hc
      rfl
    | cons c2 rest2 =>
      subst hr
      have hrest : endsWithNl (c2 :: rest2) = true := by
        simpa [endsWithNl, List.getLast?_cons_cons] using h
      have ih2 := ih hrest
      rw [linesAndRest_cons]
      by_cases hc : c = '\n'
      · rw [if_pos hc]
        exact ih2
      · rw [if_neg hc]
        cases hp : (linesAndRest (c2 :: rest2)).1 with
        | nil =>
          exfalso
          have hj := linesAndRest_join (c2 :: rest2)
          rw [hp, ih2] at hj
          simp at hj
        | cons l ls => exact ih2

theorem endsWithNl_of_rest_nil (s : List Char) (hs : s ≠ [])
    (h : (linesAndRest s).2 = []) : endsWithNl s = true := by
  induction s with
  | nil => exact absurd rfl hs
  | cons c rest ih =>
    cases hr : rest with
    | nil =>
      subst hr
      by_cases hc : c = '\n'
      · simp [endsWithNl, hc]
      · simp [linesAndRest, hc] at h
    | cons c2 rest2 =>
      subst hr
      rw [linesAndRest_cons] at h
      by_cases hc : c = '\n'
      · rw [if_pos hc] at h
        have h2 : (linesAndRest (c2 :: rest2)).2 = [] := h
        have := ih (by simp) h2
        simpa [endsWithNl, List.getLast?_cons_cons] using this
      · rw [if_neg hc] at h
        cases hp : (linesAndRest (c2 :: rest2)).1 with
        | nil =>
          rw [hp] at h
          simp at h
        | cons l ls =>
          rw [hp] at h
          have h2 : (linesAndRest (c2 :: rest2)).2 = [] := h
          have := ih (by simp) h2
          simpa [endsWithNl, List.getLast?_cons_cons] using this

theorem mem_join_map_infix (L : List (List Char)) (r : List Char) (l : List Char)
    (hl : l ∈ L) : ∃ pre post, (L.map (fun x => x ++ ['\n'])).flatten ++ r = pre ++ l ++ post := by
  induction L with
  | nil => simp at hl
  | cons x xs ih =>
    rcases List.mem_cons.mp hl with h | h
    · subst h
      exact ⟨[], '\n' :: ((xs.map (fun x => x ++ ['\n'])).flatten ++ r), by simp⟩
    · rcases ih h with ⟨pre, post, hp⟩
      exact ⟨(x ++ ['\n']) ++ pre, post, by simp [hp]⟩

/-- Every complete line is a contiguous piece of the text it was split from. -/
theorem linesAndRest_fst_infix (s l : List Char) (hl : l ∈ (linesAndRest s).1) :
    ∃ pre post, s = pre ++ l ++ post := by
  rcases mem_join_map_infix (linesAndRest s).1 (linesAndRest s).2 l hl with ⟨pre, post, hp⟩
  exact ⟨pre, post, by rw [← linesAndRest_join s, hp]⟩

/-- The trailing fragment is a contiguous (suffix) piece of the text. -/
theorem linesAndRest_snd_infix (s : List Char) :
    ∃ pre post, s = pre ++ (linesAndRest s).2 ++ post := by
  refine ⟨((linesAndRest s).1.map (fun l => l ++ ['\n'])).flatten, [], ?_⟩
  rw [List.append_nil, linesAndRest_join s]

/-! ## Log Tailer: `SessionWatcher.processUpdate` (`session-watcher.ts`)

Per watched file the tailer keeps a byte `offset` and a carried-over
partial line `part` (`fileOffsets` / `partialLines` in the source).  File
contents are byte lists; one `processUpdate` call sees the file's current
contents and returns the new cursor plus the batch of logical lines handed
to the update handler. -/

/-- Result of one `processUpdate` call on one watched file. -/
structure TailResult where
  offset : Nat
  part : List Char
  emitted : List (List Char)
deriving DecidableEq

/-- The read path of `processUpdate` for `offset ≤ content.length`
(`session-watcher.ts:156-238` below the truncation check):
reads `[offset, size)`, advances the offset, prepends the carried-over
partial, splits on `"\n"`, pops the trailing fragment unless the text ends
in a newline, early-emits the fragment when it already parses as JSON, and
filters blank lines out of the emitted batch.  `currentSize <= prevOffset`
(equality) returns without reading, as in the source. -/
def processUpdateGo (offset : Nat) (part : List Char) (content : List Char) : TailResult :=
  if content.length ≤ offset then ⟨offset, part, []⟩
  else
    let newContent := content.drop offset
    let combined := part ++ newContent
    let parts0 := jsSplitNewline combined
    let trailing0 := if endsWithNl combined then [] else parts0.getLastD []
    let parts1 := if endsWithNl combined then parts0 else parts0.dropLast
    let parts2 := if !trailing0.isEmpty && jsonOk trailing0 then parts1 ++ [trailing0] else parts1
    let newPart := if !trailing0.isEmpty && jsonOk trailing0 then [] else trailing0
    ⟨content.length, newPart, parts2.filter (fun l => !isBlank l)⟩

/-- `SessionWatcher.processUpdate`: on truncation (`currentSize < offset`)
the cursor is reset to offset `0` with the partial discarded and the call
re-runs from scratch; otherwise the read path runs. -/
def processUpdate (offset : Nat) (part : List Char) (content : List Char) : TailResult :=
  if content.length < offset then processUpdateGo 0 [] content
  else processUpdateGo offset part content

theorem jsSplitNewline_getLastD (s : List Char) :
    (jsSplitNewline s).getLastD [] = (linesAndRest s).2 := by
  simp [jsSplitNewline]

theorem jsSplitNewline_dropLast (s : List Char) :
    (jsSplitNewline s).dropLast = (linesAndRest s).1 := by
  simp [jsSplitNewline]

/-- Characterization of the read path: with new bytes available, the offset
advances to the file size; the trailing fragment of `partial ++ newBytes`
is either early-emitted (when it parses as JSON) or kept as the new partial. -/
theorem processUpdateGo_read (offset : Nat) (part content : List Char)
    (h : offset < content.length) :
    processUpdateGo offset part content =
      if jsonOk (linesAndRest (part ++ content.drop offset)).2 then
        ⟨content.length, [],
          ((linesAndRest (part ++ content.drop offset)).1
            ++ [(linesAndRest (part ++ content.drop offset)).2]).filter (fun l => !isBlank l)⟩
      else
        ⟨content.length, (linesAndRest (part ++ content.drop offset)).2,
          (linesAndRest (part ++ content.drop offset)).1.filter (fun l => !isBlank l)⟩ := by
  have hle : ¬ content.length ≤ offset := not_le.mpr h
  have hdne : content.drop offset ≠ [] := by
    rw [Ne, List.drop_eq_nil_iff_le]
    omega
  have hne : part ++ content.drop offset ≠ [] := fun hx =>
    hdne (List.append_eq_nil.mp hx).2
  by_cases he : endsWithNl (part ++ content.drop offset)
  · have hfrag : (linesAndRest (part ++ content.drop offset)).2 = [] :=
      rest_nil_of_endsWithNl _ he
    have hjf : jsonOk (linesAndRest (part ++ content.drop offset)).2 = false := by
      rw [hfrag]
      rfl
    simp only [processUpdateGo, hle, if_false, he, if_true, hjf,
      jsSplitNewline, hfrag, List.isEmpty_nil, Bool.not_true, Bool.false_and]
    rw [List.filter_append]
    simp [isBlank, jsTrim]
  · have hfrag : (linesAndRest (part ++ content.drop offset)).2 ≠ [] := fun hx =>
      he (endsWithNl_of_rest_nil _ hne hx)
    simp only [processUpdateGo, hle, if_false, he,
      jsSplitNewline_getLastD, jsSplitNewline_dropLast]
    by_cases hj : jsonOk (linesAndRest (part ++ content.drop offset)).2
    · simp [hj, List.isEmpty_iff, hfrag]
    · simp [hj, List.isEmpty_iff, hfrag]

/-- C5: when `processUpdate` reads new bytes (`offset < content.length`),
the carried-over partial is prepended to the new bytes and the result split
on newlines; the fragment after the last newline becomes the new partial
exactly when it does not parse as a complete JSON value, and when it does
parse it is emitted in this same call's batch; in both cases the stored
offset advances to the current file size. -/
theorem tailer_partial_line_handling (offset : Nat) (part content : List Char)
    (h : offset < content.length) :
    (processUpdate offset part content).offset = content.length ∧
    (if jsonOk (linesAndRest (part ++ content.drop offset)).2 then
        (processUpdate offset part content).part = [] ∧
        (linesAndRest (part ++ content.drop offset)).2
          ∈ (processUpdate offset part content).emitted
      else
        (processUpdate offset part content).part
          = (linesAndRest (part ++ content.drop offset)).2) := by
  have hnt : ¬ content.length < offset := by omega
  rw [processUpdate, if_neg hnt, processUpdateGo_read _ _ _ h]
  by_cases hj : jsonOk (linesAndRest (part ++ content.drop offset)).2
  · have hb : isBlank (linesAndRest (part ++ content.drop offset)).2 = false := by
      cases hfb : isBlank (linesAndRest (part ++ content.drop offset)).2 with
      | false => rfl
      | true => exact absurd hj (by simp [jsonOk_of_blank _ hfb])
    refine ⟨by simp [hj], ?_⟩
    simp only [hj, if_true]
    refine ⟨by trivial, ?_⟩
    exact List.mem_filter.mpr
      ⟨List.mem_append_right _ (List.mem_singleton.mpr rfl), by simp [hb]⟩
  · simp [hj]

/-- C5 witness: a concrete read — appending the bytes `{}` with no stored
partial.  The fragment `{}` parses as JSON; it is early-emitted and the
partial is left empty, with the offset advanced to the file size. -/
theorem tailer_partial_line_handling_witness :
    0 < ("\x7b\x7d".toList).length ∧
    ((processUpdate 0 [] ("\x7b\x7d".toList)).offset = ("\x7b\x7d".toList).length ∧
      (if jsonOk (linesAndRest (([] : List Char) ++ ("\x7b\x7d".toList).drop 0)).2 then
          (processUpdate 0 [] ("\x7b\x7d".toList)).part = [] ∧
          (linesAndRest (([] : List Char) ++ ("\x7b\x7d".toList).drop 0)).2
            ∈ (processUpdate 0 [] ("\x7b\x7d".toList)).emitted
        else
          (processUpdate 0 [] ("\x7b\x7d".toList)).part
            = (linesAndRest (([] : List Char) ++ ("\x7b\x7d".toList).drop 0)).2)) :=
  ⟨by decide, tailer_partial_line_handling 0 [] ("\x7b\x7d".toList) (by decide)⟩

/-- C6: a `processUpdate` call that observes `currentSize < offset`
(truncation/rewrite) behaves exactly like a fresh tailer reading the file
from offset `0` with no carried partial: the old cursor state is discarded,
the offset ends at the current size, and every emitted line is a contiguous
piece of the current (rewritten) content — nothing from the stale byte
range can be emitted. -/
theorem tailer_truncation_replays_from_start (offset : Nat) (part content : List Char)
    (h : content.length < offset) :
    processUpdate offset part content = processUpdate 0 [] content ∧
    (processUpdate offset part content).offset = content.length ∧
    ∀ l ∈ (processUpdate offset part content).emitted,
      ∃ pre post, content = pre ++ l ++ post := by
  have heq : processUpdate offset part content = processUpdateGo 0 [] content := by
    rw [processUpdate, if_pos h]
  have heq2 : processUpdate 0 [] content = processUpdateGo 0 [] content := by
    rw [processUpdate, if_neg (by omega)]
  have hco : ([] : List Char) ++ content.drop 0 = content := by simp
  refine ⟨heq.trans heq2.symm, ?_, ?_⟩
  · rcases Nat.eq_zero_or_pos content.length with hz | hz
    · rw [heq, processUpdateGo, if_pos (by omega)]
      simpa using hz.symm
    · rw [heq, processUpdateGo_read 0 [] content hz, hco]
      by_cases hj : jsonOk (linesAndRest content).2 <;> simp [hj]
  · intro l hl
    rcases Nat.eq_zero_or_pos content.length with hz | hz
    · rw [heq, processUpdateGo, if_pos (by omega)] at hl
      simp at hl
    · rw [heq, processUpdateGo_read 0 [] content hz, hco] at hl
      by_cases hj : jsonOk (linesAndRest content).2
      · rw [if_pos hj] at hl
        have hl2 := List.mem_filter.mp hl
        rcases List.mem_append.mp hl2.1 with hm | hm
        · exact linesAndRest_fst_infix content l hm
        · rw [List.mem_singleton.mp hm]
          exact linesAndRest_snd_infix content
      · rw [if_neg hj] at hl
        have hl2 := List.mem_filter.mp hl
        exact linesAndRest_fst_infix content l hl2.1

/-- C6 witness: a file holding `a\nbc` after having been truncated from a
larger size (stored offset 10): the call equals a fresh replay, ends at
offset 4, and each emitted line is a piece of the current content. -/
theorem tailer_truncation_replays_from_start_witness :
    ("a\nbc".toList).length < 10 ∧
    (processUpdate 10 "xy".toList ("a\nbc".toList) = processUpdate 0 [] ("a\nbc".toList) ∧
      (processUpdate 10 "xy".toList ("a\nbc".toList)).offset = ("a\nbc".toList).length ∧
      ∀ l ∈ (processUpdate 10 "xy".toList ("a\nbc".toList)).emitted,
        ∃ pre post, "a\nbc".toList = pre ++ l ++ post) :=
  ⟨by decide, tailer_truncation_replays_from_start 10 ("xy".toList) ("a\nbc".toList) (by decide)⟩

/-! ## Appending a file in chunks, with a `processUpdate` after each append

This models the property-test scenario of §8: a file written as a sequence
of appended chunks, the tailer running once after every append. -/

def runAppendsGo (content : List Char) (offset : Nat) (part : List Char) :
    List (List Char) → List (List Char)
  | [] => []
  | ch :: rest =>
    let r := processUpdate offset part (content ++ ch)
    r.emitted ++ runAppendsGo (content ++ ch) r.offset r.part rest

/-- All logical lines emitted over a whole append sequence, starting from a
fresh file (offset 0, no partial). -/
def runAppends (chunks : List (List Char)) : List (List Char) :=
  runAppendsGo [] 0 [] chunks

theorem runAppendsGo_spec (chunks : List (List Char)) (content : List Char)
    (H : ∀ i < chunks.length,
      (linesAndRest (content ++ ((chunks.take (i + 1)).flatten))).2 = [] ∨
      jsonOk (linesAndRest (content ++ ((chunks.take (i + 1)).flatten))).2 = false) :
    runAppendsGo content content.length (linesAndRest content).2 chunks
      = (linesAndRest ((linesAndRest content).2 ++ chunks.flatten)).1.filter
          (fun l => !isBlank l) := by
  induction chunks generalizing content with
  | nil =>
    have hrc := linesAndRest_of_no_nl (linesAndRest content).2 (linesAndRest_rest_no_nl content)
    simp [runAppendsGo, hrc]
  | cons ch rest ih =>
    have hH0 : (linesAndRest (content ++ ch)).2 = [] ∨
        jsonOk (linesAndRest (content ++ ch)).2 = false := by
      have := H 0 (by simp)
      simpa using this
    have hHrest : ∀ i < rest.length,
        (linesAndRest ((content ++ ch) ++ ((rest.take (i + 1)).flatten))).2 = [] ∨
        jsonOk (linesAndRest ((content ++ ch) ++ ((rest.take (i + 1)).flatten))).2 = false := by
      intro i hi
      have := H (i + 1) (by simpa using Nat.succ_lt_succ hi)
      simpa [List.take_succ_cons, List.append_assoc] using this
    by_cases hch : ch = []
    · subst hch
      have hcc : content ++ ([] : List Char) = content := by simp
      have hstep : processUpdate content.length (linesAndRest content).2 (content ++ [])
          = ⟨content.length, (linesAndRest content).2, []⟩ := by
        rw [hcc, processUpdate, if_neg (by omega), processUpdateGo, if_pos (le_refl _)]
      rw [runAppendsGo, hstep]
      have := ih content (by simpa [hcc] using hHrest)
      simp only [hcc]
      simpa using this
    · have hlen : content.length < (content ++ ch).length := by
        have : 0 < ch.length := List.length_pos.mpr hch
        simp [List.length_append]
        omega
      have hdrop : (content ++ ch).drop content.length = ch := List.drop_left content ch
      have hfrag : (linesAndRest ((linesAndRest content).2 ++ ch)).2
          = (linesAndRest (content ++ ch)).2 := (linesAndRest_peel_snd content ch).symm
      have hjf : jsonOk (linesAndRest ((linesAndRest content).2 ++ ch)).2 = false := by
        rw [hfrag]
        rcases hH0 with h0 | h0
        · rw [h0]
          rfl
        · exact h0
      have hstep : processUpdate content.length (linesAndRest content).2 (content ++ ch)
          = ⟨(content ++ ch).length, (linesAndRest (content ++ ch)).2,
             (linesAndRest ((linesAndRest content).2 ++ ch)).1.filter
               (fun l => !isBlank l)⟩ := by
        rw [processUpdate, if_neg (by omega), processUpdateGo_read _ _ _ hlen, hdrop,
          if_neg (by rw [hjf]; simp)]
        rw [hfrag]
      have hunfold : runAppendsGo content content.length (linesAndRest content).2 (ch :: rest)
          = (processUpdate content.length (linesAndRest content).2 (content ++ ch)).emitted
            ++ runAppendsGo (content ++ ch)
                (processUpdate content.length (linesAndRest content).2 (content ++ ch)).offset
                (processUpdate content.length (linesAndRest content).2 (content ++ ch)).part
                rest := rfl
      rw [hunfold, hstep]
      show (linesAndRest ((linesAndRest content).2 ++ ch)).1.filter (fun l => !isBlank l)
            ++ runAppendsGo (content ++ ch) (content ++ ch).length
                (linesAndRest (content ++ ch)).2 rest
          = (linesAndRest ((linesAndRest content).2 ++ (ch :: rest).flatten)).1.filter
              (fun l => !isBlank l)
      rw [ih (content ++ ch) hHrest, ← List.filter_append]
      congr 1
      conv_rhs => rw [List.flatten_cons, ← List.append_assoc,
        linesAndRest_peel_fst ((linesAndRest content).2 ++ ch) rest.flatten, hfrag]

/-! ## `splitMessage` (`src/utils/constants.ts`) -/

/-- JS `s.lastIndexOf(c, fromIdx)` restricted to found indices: the greatest
index `i ≤ fromIdx` with `s[i] = c`. -/
def lastIndexLe (s : List Char) (c : Char) (fromIdx : Nat) : Option Nat :=
  ((List.range s.length).filter
    (fun i => decide (i ≤ fromIdx) && decide (s[i]? = some c))).getLast?

/-- JS `s.lastIndexOf(c, fromIdx)` (`-1` when absent). -/
def jsLastIndexOf (s : List Char) (c : Char) (fromIdx : Nat) : Int :=
  match lastIndexLe s c fromIdx with
  | some i => (i : Int)
  | none => -1

/-- The split index chosen by one `splitMessage` loop iteration when
`remaining` is longer than `limit`: the last newline at index ≤ `limit`,
falling back to the last space when the newline is before 30% of the limit
(or absent), and to a hard cut at `limit`.  The JS float comparison
`splitAt < limit * 0.3` is modelled by the exact rational comparison
`10 * splitAt < 3 * limit`; for the default `limit = 2000` the IEEE product
rounds to `600.0`, so the two comparisons pick the same integers. -/
def pickSplit (remaining : List Char) (limit : Nat) : Nat :=
  let a1 := jsLastIndexOf remaining '\n' limit
  if 10 * a1 < 3 * (limit : Int) then
    let a2 := jsLastIndexOf remaining ' ' limit
    if 10 * a2 < 3 * (limit : Int) then limit else a2.toNat
  else a1.toNat

/-- The `while` loop of `splitMessage`.  `fuel` bounds the iteration count:
for `limit ≥ 1` every iteration consumes at least one character, so
`remaining.length` iterations always suffice (the JS loop would not
terminate for `limit = 0`, a case `splitMessage` is never called with). -/
def splitMessageGo (limit : Nat) : Nat → List Char → List (List Char)
  | 0, _ => []
  | fuel + 1, remaining =>
    if remaining.length = 0 then []
    else if remaining.length ≤ limit then [remaining]
    else
      (remaining.take (pickSplit remaining limit)) ::
        splitMessageGo limit fuel
          (jsTrimStart (remaining.drop (pickSplit remaining limit)))

/-- `splitMessage(text, limit)`: split a long text into chunks of at most
`limit` characters, preferring newline/space boundaries. -/
def splitMessage (text : List Char) (limit : Nat) : List (List Char) :=
  if text.length ≤ limit then [text]
  else splitMessageGo limit text.length text

/-- The whitespace dropped between consecutive chunks, interleaved back:
`joinWithDrops [c1, …, cn] [d1, …, dn] = c1 ++ d1 ++ … ++ cn ++ dn`. -/
def joinWithDrops : List (List Char) → List (List Char) → List Char
  | [], _ => []
  | ch :: cs, [] => ch ++ joinWithDrops cs []
  | ch :: cs, d :: ds => ch ++ d ++ joinWithDrops cs ds

theorem lastIndexLe_bounds (s : List Char) (c : Char) (fromIdx i : Nat)
    (h : lastIndexLe s c fromIdx = some i) : i ≤ fromIdx ∧ i < s.length := by
  have hx : i ∈ ((List.range s.length).filter
      (fun i => decide (i ≤ fromIdx) && decide (s[i]? = some c))).getLast? := by
    rw [lastIndexLe] at h
    rw [h]
    rfl
  rcases List.mem_getLast?_eq_getLast hx with ⟨hne, hxe⟩
  have hmem : i ∈ (List.range s.length).filter
      (fun i => decide (i ≤ fromIdx) && decide (s[i]? = some c)) := by
    rw [hxe]
    exact List.getLast_mem hne
  have h1 := (List.mem_filter.mp hmem).1
  have h2 := (List.mem_filter.mp hmem).2
  refine ⟨?_, List.mem_range.mp h1⟩
  have := (Bool.and_eq_true _ _).mp h2
  exact of_decide_eq_true this.1

theorem pickSplit_le (remaining : List Char) (limit : Nat) :
    pickSplit remaining limit ≤ limit := by
  have hn := fun i => (lastIndexLe_bounds remaining '\n' limit i)
  have hs := fun j => (lastIndexLe_bounds remaining ' ' limit j)
  unfold pickSplit jsLastIndexOf
  cases h1 : lastIndexLe remaining '\n' limit with
  | none =>
    cases h2 : lastIndexLe remaining ' ' limit with
    | none =>
      dsimp only
      split_ifs <;> omega
    | some j =>
      have hb := (hs j h2).1
      dsimp only
      split_ifs <;> omega
  | some i =>
    have hb := (hn i h1).1
    cases h2 : lastIndexLe remaining ' ' limit with
    | none =>
      dsimp only
      split_ifs <;> omega
    | some j =>
      have hb2 := (hs j h2).1
      dsimp only
      split_ifs <;> omega

theorem pickSplit_pos (remaining : List Char) (limit : Nat) (hl : 1 ≤ limit) :
    1 ≤ pickSplit remaining limit := by
  unfold pickSplit jsLastIndexOf
  cases h1 : lastIndexLe remaining '\n' limit with
  | none =>
    cases h2 : lastIndexLe remaining ' ' limit with
    | none =>
      dsimp only
      split_ifs <;> omega
    | some j =>
      dsimp only
      split_ifs <;> omega
  | some i =>
    cases h2 : lastIndexLe remaining ' ' limit with
    | none =>
      dsimp only
      split_ifs <;> omega
    | some j =>
      dsimp only
      split_ifs <;> omega

theorem splitMessageGo_spec (limit : Nat) (hl : 1 ≤ limit) :
    ∀ fuel remaining, remaining.length ≤ fuel →
      (∀ ch ∈ splitMessageGo limit fuel remaining, ch.length ≤ limit ∧ ch ≠ []) ∧
      ∃ ds : List (List Char),
        ds.length = (splitMessageGo limit fuel remaining).length ∧
        (∀ d ∈ ds, ∀ x ∈ d, jsWhitespace x = true) ∧
        joinWithDrops (splitMessageGo limit fuel remaining) ds = remaining := by
  intro fuel
  induction fuel with
  | zero =>
    intro remaining hrem
    have hnil : remaining = [] := List.length_eq_zero.mp (Nat.le_zero.mp hrem)
    subst hnil
    exact ⟨by simp [splitMessageGo], ⟨[], by simp [splitMessageGo], by simp,
      by simp [splitMessageGo, joinWithDrops]⟩⟩
  | succ fuel ih =>
    intro remaining hrem
    by_cases h0 : remaining.length = 0
    · have hnil : remaining = [] := List.length_eq_zero.mp h0
      subst hnil
      exact ⟨by simp [splitMessageGo], ⟨[], by simp [splitMessageGo], by simp,
        by simp [splitMessageGo, joinWithDrops]⟩⟩
    · by_cases h1 : remaining.length ≤ limit
      · have hne : remaining ≠ [] := fun hx => h0 (by simp [hx])
        rw [splitMessageGo, if_neg h0, if_pos h1]
        refine ⟨?_, ⟨[[]], by simp, by simp, by simp [joinWithDrops]⟩⟩
        intro ch hch
        rw [List.mem_singleton] at hch
        subst hch
        exact ⟨h1, hne⟩
      · push_neg at h1
        have hsp1 : 1 ≤ pickSplit remaining limit := pickSplit_pos _ _ hl
        have hsple : pickSplit remaining limit ≤ limit := pickSplit_le _ _
        have hrem2 : (jsTrimStart (remaining.drop (pickSplit remaining limit))).length ≤ fuel := by
          have hd := List.length_drop (pickSplit remaining limit) remaining
          have ht := (List.dropWhile_sublist
            (p := jsWhitespace) (l := remaining.drop (pickSplit remaining limit))).length_le
          simp only [jsTrimStart]
          omega
        rw [splitMessageGo, if_neg h0, if_neg (not_le.mpr h1)]
        obtain ⟨iha, ds, hlen, hws, hjoin⟩ := ih _ hrem2
        refine ⟨?_, ⟨(remaining.drop (pickSplit remaining limit)).takeWhile jsWhitespace :: ds,
          by simp [hlen], ?_, ?_⟩⟩
        · intro ch hch
          rcases List.mem_cons.mp hch with hh | hh
          · subst hh
            constructor
            · rw [List.length_take]
              exact le_trans (min_le_left _ _) hsple
            · intro hx
              have hlen0 : (remaining.take (pickSplit remaining limit)).length = 0 := by
                rw [hx]
                rfl
              rw [List.length_take] at hlen0
              omega
          · exact iha ch hh
        · intro d hd
          rcases List.mem_cons.mp hd with hh | hh
          · subst hh
            intro x hx
            exact List.mem_takeWhile_imp hx
          · exact hws d hh
        · rw [joinWithDrops, hjoin, jsTrimStart, List.append_assoc,
            List.takeWhile_append_dropWhile, List.take_append_drop]

/-- C10 (amended): for any text and any limit at least the default 2000,
every chunk `splitMessage` returns is at most `limit` characters; no chunk
is empty unless the input itself is empty (in which case the result is the
single empty chunk — see the counterexample); and interleaving the chunks
with the whitespace dropped at each split boundary reconstructs the input
exactly, so no non-whitespace character is lost or reordered. -/
theorem splitMessage_chunks_bounded_lossless (text : List Char) (limit : Nat)
    (h : 2000 ≤ limit) :
    (∀ ch ∈ splitMessage text limit, ch.length ≤ limit ∧ (text ≠ [] → ch ≠ [])) ∧
    ∃ ds : List (List Char),
      ds.length = (splitMessage text limit).length ∧
      (∀ d ∈ ds, ∀ x ∈ d, jsWhitespace x = true) ∧
      joinWithDrops (splitMessage text limit) ds = text := by
  have hl : 1 ≤ limit := by omega
  by_cases ht : text.length ≤ limit
  · rw [splitMessage, if_pos ht]
    refine ⟨?_, ⟨[[]], by simp, by simp, by simp [joinWithDrops]⟩⟩
    intro ch hch
    rw [List.mem_singleton] at hch
    subst hch
    exact ⟨ht, fun hne => hne⟩
  · rw [splitMessage, if_neg ht]
    obtain ⟨ha, ds, h1, h2, h3⟩ := splitMessageGo_spec limit hl text.length text (le_refl _)
    exact ⟨fun ch hch => ⟨(ha ch hch).1, fun _ => (ha ch hch).2⟩, ds, h1, h2, h3⟩

/-- C10 counterexample: `splitMessage("", 2000)` returns `[""]` — a single
empty chunk, contradicting the claim that no returned chunk is empty. -/
theorem c10_counterexample :
    splitMessage [] 2000 = [[]] ∧ ([] : List Char) ∈ splitMessage [] 2000 := by
  constructor
  · rfl
  · decide

/-- C10 witness: the two-character text `hi` at the default limit. -/
theorem splitMessage_chunks_bounded_lossless_witness :
    2000 ≤ 2000 ∧
    ((∀ ch ∈ splitMessage ("hi".toList) 2000,
        ch.length ≤ 2000 ∧ ("hi".toList ≠ [] → ch ≠ [])) ∧
      ∃ ds : List (List Char),
        ds.length = (splitMessage ("hi".toList) 2000).length ∧
        (∀ d ∈ ds, ∀ x ∈ d, jsWhitespace x = true) ∧
        joinWithDrops (splitMessage ("hi".toList) 2000) ds = "hi".toList) :=
  ⟨by decide, splitMessage_chunks_bounded_lossless ("hi".toList) 2000 (by decide)⟩

/-! ## Mapping Store (`src/storage/database.ts`, `src/storage/repositories.ts`)

Rows mirror the three tables of `runMigrations`.  Row lists are kept in
ascending-id insertion order (SQLite AUTOINCREMENT ids are strictly
increasing), so iterating a list left-to-right is `SELECT … ORDER BY id
ASC`.  `nextProjectId` / `nextThreadId` model AUTOINCREMENT. -/

structure ProjectRow where
  id : Nat
  channel_id : List Char
  project_path : List Char
  project_name : List Char
  model : Option (List Char)
  approval_mode : Option (List Char)
deriving DecidableEq

structure ThreadRow where
  id : Nat
  discord_thread_id : List Char
  codex_thread_id : Option (List Char)
  project_id : Nat
  thread_name : List Char
  status : List Char
deriving DecidableEq

structure MessageRow where
  id : Nat
  thread_id : Nat
  direction : List Char
  content : Option (List Char)
deriving DecidableEq

structure Store where
  projects : List ProjectRow
  threads : List ThreadRow
  messages : List MessageRow
  nextProjectId : Nat
  nextThreadId : Nat
deriving DecidableEq

/-- sql.js raises an `Error` on a constraint violation; `execute` does not
catch it, so it propagates out of the repository call. -/
inductive SqlError where
  | uniqueViolation
deriving DecidableEq

instance {e a : Type} [DecidableEq e] [DecidableEq a] : DecidableEq (Except e a) := fun x y =>
  match x, y with
  | .error u, .error v =>
    if h : u = v then isTrue (by rw [h]) else isFalse (fun hh => by cases hh; exact h rfl)
  | .ok u, .ok v =>
    if h : u = v then isTrue (by rw [h]) else isFalse (fun hh => by cases hh; exact h rfl)
  | .error _, .ok _ => isFalse (fun hh => Except.noConfusion hh)
  | .ok _, .error _ => isFalse (fun hh => Except.noConfusion hh)

/-- `INSERT INTO projects …` under UNIQUE(channel_id) (schema) and the
unique index on project_path (`createIndexes`:
`idx_projects_project_path_unique`).  There is no ON CONFLICT clause. -/
def insertProject (s : Store) (channelId projectPath projectName : List Char)
    (model approvalMode : Option (List Char)) : Except SqlError Store :=
  if s.projects.any (fun p => decide (p.channel_id = channelId)) then
    .error .uniqueViolation
  else if s.projects.any (fun p => decide (p.project_path = projectPath)) then
    .error .uniqueViolation
  else
    .ok { s with
      projects := s.projects ++
        [⟨s.nextProjectId, channelId, projectPath, projectName, model, approvalMode⟩],
      nextProjectId := s.nextProjectId + 1 }

/-- `INSERT INTO threads …` under UNIQUE(discord_thread_id) (schema) and the
unique index on codex_thread_id (`idx_threads_codex_thread_unique`; SQLite
unique indexes admit any number of NULLs, hence the `Option` match).
`status` defaults to `'active'` per the schema. -/
def insertThread (s : Store) (discordThreadId : List Char)
    (codexThreadId : Option (List Char)) (projectId : Nat) (threadName : List Char) :
    Except SqlError Store :=
  if s.threads.any (fun t => decide (t.discord_thread_id = discordThreadId)) then
    .error .uniqueViolation
  else if (match codexThreadId with
      | some c => s.threads.any (fun t => decide (t.codex_thread_id = some c))
      | none => false) then
    .error .uniqueViolation
  else
    .ok { s with
      threads := s.threads ++
        [⟨s.nextThreadId, discordThreadId, codexThreadId, projectId, threadName,
          "active".toList⟩],
      nextThreadId := s.nextThreadId + 1 }

namespace ProjectRepo

def getByChannelId (s : Store) (channelId : List Char) : Option ProjectRow :=
  s.projects.find? (fun p => decide (p.channel_id = channelId))

/-- `ProjectRepo.create` (`repositories.ts:409-423`): a plain INSERT, then a
re-read by channel id.  A uniqueness violation propagates as the sql.js
error (the TS `!` assertion on the re-read is unreachable after a
successful insert and is modelled by `getD` of the just-inserted row). -/
def create (s : Store) (channelId projectPath projectName : List Char)
    (model approvalMode : Option (List Char)) :
    Except SqlError (Store × ProjectRow) :=
  match insertProject s channelId projectPath projectName model approvalMode with
  | .error e => .error e
  | .ok s1 =>
    .ok (s1, (getByChannelId s1 channelId).getD
      ⟨s.nextProjectId, channelId, projectPath, projectName, model, approvalMode⟩)

/-- `ProjectRepo.delete`: `DELETE FROM threads WHERE project_id = ?` then
`DELETE FROM projects WHERE id = ?`; with `PRAGMA foreign_keys = ON` the
thread deletion cascades to their messages. -/
def delete (s : Store) (id : Nat) : Store :=
  let deletedThreadIds := (s.threads.filter (fun t => decide (t.project_id = id))).map (·.id)
  { s with
    threads := s.threads.filter (fun t => !decide (t.project_id = id)),
    messages := s.messages.filter (fun m => !deletedThreadIds.contains m.thread_id),
    projects := s.projects.filter (fun p => !decide (p.id = id)) }

end ProjectRepo

namespace ThreadRepo

def getByDiscordThreadId (s : Store) (discordThreadId : List Char) : Option ThreadRow :=
  s.threads.find? (fun t => decide (t.discord_thread_id = discordThreadId))

def getByCodexThreadId (s : Store) (codexThreadId : List Char) : Option ThreadRow :=
  s.threads.find? (fun t => decide (t.codex_thread_id = some codexThreadId))

/-- `ThreadRepo.create` (`repositories.ts:453-466`): plain INSERT, then a
re-read by Discord thread id; no ON CONFLICT clause, no try/catch. -/
def create (s : Store) (discordThreadId : List Char) (projectId : Nat)
    (threadName : List Char) (codexThreadId : Option (List Char)) :
    Except SqlError (Store × ThreadRow) :=
  match insertThread s discordThreadId codexThreadId projectId threadName with
  | .error e => .error e
  | .ok s1 =>
    .ok (s1, (getByDiscordThreadId s1 discordThreadId).getD
      ⟨s.nextThreadId, discordThreadId, codexThreadId, projectId, threadName,
        "active".toList⟩)

end ThreadRepo

/-- C1 counterexample: a store already holding a Project at path `/a/b`
(channel `C1`).  `ProjectRepo.create("C2", "/a/b", "n2")` raises the
uniqueness violation instead of returning the surviving row, so the claim
"the call does not fail: it returns the existing surviving row" is false. -/
theorem c1_counterexample :
    ProjectRepo.create
        ⟨[⟨1, "C1".toList, "/a/b".toList, "n".toList, none, none⟩], [], [], 2, 1⟩
        ("C2".toList) ("/a/b".toList) ("n2".toList) none none
      = Except.error SqlError.uniqueViolation ∧
    ∀ r : Store × ProjectRow,
      ProjectRepo.create
          ⟨[⟨1, "C1".toList, "/a/b".toList, "n".toList, none, none⟩], [], [], 2, 1⟩
          ("C2".toList) ("/a/b".toList) ("n2".toList) none none
        ≠ Except.ok r := by
  have h1 : ProjectRepo.create
      ⟨[⟨1, "C1".toList, "/a/b".toList, "n".toList, none, none⟩], [], [], 2, 1⟩
      ("C2".toList) ("/a/b".toList) ("n2".toList) none none
      = Except.error SqlError.uniqueViolation := by decide
  refine ⟨h1, ?_⟩
  intro r hr
  rw [h1] at hr
  exact Except.noConfusion hr

/-- C1 (amended): a `ProjectRepo.create` call for a path that already has a
Project row fails with the uniqueness-violation error — the plain INSERT
trips the unique path index, the error propagates, and the surviving row is
not returned (no row is inserted; the store the caller holds is unchanged). -/
theorem projectRepo_create_duplicate_path_errors (s : Store)
    (channelId projectPath projectName : List Char)
    (model approvalMode : Option (List Char))
    (h : ∃ p ∈ s.projects, p.project_path = projectPath) :
    ProjectRepo.create s channelId projectPath projectName model approvalMode
      = Except.error SqlError.uniqueViolation := by
  rcases h with ⟨p, hp, hpath⟩
  unfold ProjectRepo.create insertProject
  by_cases hc : s.projects.any (fun q => decide (q.channel_id = channelId))
  · simp [hc]
  · have hpa : s.projects.any (fun q => decide (q.project_path = projectPath)) = true :=
      List.any_eq_true.mpr ⟨p, hp, by simp [hpath]⟩
    simp [hc, hpa]

/-- C1 witness: the amended theorem applied at the counterexample store. -/
theorem projectRepo_create_duplicate_path_errors_witness :
    (∃ p ∈ (⟨[⟨1, "C1".toList, "/a/b".toList, "n".toList, none, none⟩], [], [], 2, 1⟩
        : Store).projects, p.project_path = "/a/b".toList) ∧
    ProjectRepo.create
        ⟨[⟨1, "C1".toList, "/a/b".toList, "n".toList, none, none⟩], [], [], 2, 1⟩
        ("C3".toList) ("/a/b".toList) ("n3".toList) none none
      = Except.error SqlError.uniqueViolation :=
  ⟨by decide, projectRepo_create_duplicate_path_errors _ _ _ _ none none (by decide)⟩

/-- C3 counterexample: `createThread("T1", 1, "name", "S1")` twice in
sequence.  The first call returns a row; the second call's INSERT violates
the unique constraints and raises, so "both calls return a row and neither
fails" is false. -/
theorem c3_counterexample :
    ThreadRepo.create
        ⟨[⟨1, "C1".toList, "/p".toList, "p".toList, none, none⟩],
          [⟨1, "T1".toList, some ("S1".toList), 1, "name".toList, "active".toList⟩],
          [], 2, 2⟩
        ("T1".toList) 1 ("name".toList) (some ("S1".toList))
      = Except.error SqlError.uniqueViolation := by
  decide

/-- C3 (amended): in the spec scenario the first `createThread("T1", 1,
"name", "S1")` succeeds and returns a row carrying external-session id `S1`
and chat-thread id `T1`, leaving exactly one Thread row; the second
identical call does not return a row — it fails with the uniqueness
violation — and the store still holds exactly that one row. -/
theorem threadRepo_create_twice_scenario :
    ThreadRepo.create
        ⟨[⟨1, "C1".toList, "/p".toList, "p".toList, none, none⟩], [], [], 2, 1⟩
        ("T1".toList) 1 ("name".toList) (some ("S1".toList))
      = Except.ok
          (⟨[⟨1, "C1".toList, "/p".toList, "p".toList, none, none⟩],
            [⟨1, "T1".toList, some ("S1".toList), 1, "name".toList, "active".toList⟩],
            [], 2, 2⟩,
           ⟨1, "T1".toList, some ("S1".toList), 1, "name".toList, "active".toList⟩) ∧
    (⟨[⟨1, "C1".toList, "/p".toList, "p".toList, none, none⟩],
        [⟨1, "T1".toList, some ("S1".toList), 1, "name".toList, "active".toList⟩],
        [], 2, 2⟩ : Store).threads.length = 1 ∧
    ThreadRepo.create
        ⟨[⟨1, "C1".toList, "/p".toList, "p".toList, none, none⟩],
          [⟨1, "T1".toList, some ("S1".toList), 1, "name".toList, "active".toList⟩],
          [], 2, 2⟩
        ("T1".toList) 1 ("name".toList) (some ("S1".toList))
      = Except.error SqlError.uniqueViolation := by
  refine ⟨by decide, by decide, by decide⟩

/-! ## Stale-project verification in `_handleNewSessionImpl`
(`client.ts:149-177`) -/

/-- Result of `guild.channels.fetch(project.channel_id)`: success, or a
failure whose error object may carry a numeric `code`. -/
inductive FetchOutcome where
  | ok
  | err (code : Option Int)
deriving DecidableEq

/-- What the handler does next after verifying the stored row. -/
inductive NextAction where
  | useExisting
  | recreate
  | abortAttempt
deriving DecidableEq

/-- The stored-project verification step: on fetch success the existing
channel is used; on failure, only the codes 10003 ("Unknown Channel") and
50001 ("Missing Access") mark the row stale — it is deleted and creation
falls through; any other failure is transient and the attempt returns
without touching the store. -/
def checkStaleProject (s : Store) (project : ProjectRow) (fetch : FetchOutcome) :
    Store × NextAction :=
  match fetch with
  | .ok => (s, .useExisting)
  | .err code =>
    if code = some 10003 ∨ code = some 50001 then
      (ProjectRepo.delete s project.id, .recreate)
    else (s, .abortAttempt)

/-- C9: during new-session handling, the stored Project row is deleted (and
creation re-attempted) iff the channel fetch failed with code 10003 or
50001; a failure with any other code aborts the attempt with the store
unchanged and no chat-side entity created; a successful fetch also leaves
the store unchanged.  On deletion, only rows with the stale project's id
disappear — every other project survives. -/
theorem stale_project_cleanup_iff_gone_codes (s : Store) (project : ProjectRow)
    (fetch : FetchOutcome) (hmem : project ∈ s.projects) :
    ((∃ code, fetch = .err code ∧ (code = some 10003 ∨ code = some 50001)) ↔
      ((checkStaleProject s project fetch).2 = .recreate ∧
        ∀ p ∈ (checkStaleProject s project fetch).1.projects, p.id ≠ project.id)) ∧
    (∀ code, fetch = .err code → ¬(code = some 10003 ∨ code = some 50001) →
      (checkStaleProject s project fetch).1 = s ∧
      (checkStaleProject s project fetch).2 = .abortAttempt) ∧
    (fetch = .ok →
      (checkStaleProject s project fetch).1 = s ∧
      (checkStaleProject s project fetch).2 = .useExisting) ∧
    ((checkStaleProject s project fetch).2 = .recreate →
      ∀ q ∈ s.projects, q.id ≠ project.id →
        q ∈ (checkStaleProject s project fetch).1.projects) := by
  cases fetch with
  | ok =>
    refine ⟨?_, ?_, ?_, ?_⟩
    · constructor
      · rintro ⟨code, hcode, -⟩
        exact FetchOutcome.noConfusion hcode
      · rintro ⟨hact, -⟩
        exact absurd hact (by simp [checkStaleProject])
    · intro code hcode
      exact FetchOutcome.noConfusion hcode
    · intro _
      exact ⟨rfl, rfl⟩
    · intro hact
      exact absurd hact (by simp [checkStaleProject])
  | err code =>
    by_cases hcode : code = some 10003 ∨ code = some 50001
    · refine ⟨?_, ?_, ?_, ?_⟩
      · constructor
        · intro _
          refine ⟨by simp [checkStaleProject, hcode], ?_⟩
          intro p hp
          simp only [checkStaleProject, if_pos hcode, ProjectRepo.delete] at hp
          have := (List.mem_filter.mp hp).2
          simpa using this
        · intro _
          exact ⟨code, rfl, hcode⟩
      · intro c hc hnc
        injection hc with hc2
        exact absurd (hc2 ▸ hcode) hnc
      · intro hok
        exact FetchOutcome.noConfusion hok
      · intro _ q hq hqid
        simp only [checkStaleProject, if_pos hcode, ProjectRepo.delete]
        exact List.mem_filter.mpr ⟨hq, by simpa using hqid⟩
    · refine ⟨?_, ?_, ?_, ?_⟩
      · constructor
        · rintro ⟨c, hc, hcc⟩
          injection hc with hc2
          exact absurd (hc2 ▸ hcc) hcode
        · rintro ⟨hact, -⟩
          exact absurd hact (by simp [checkStaleProject, hcode])
      · intro c hc _
        injection hc with hc2
        subst hc2
        exact ⟨by simp [checkStaleProject, hcode], by simp [checkStaleProject, hcode]⟩
      · intro hok
        exact FetchOutcome.noConfusion hok
      · intro hact
        exact absurd hact (by simp [checkStaleProject, hcode])

/-- C9 witness: a one-project store, fetch failing with code 10003 (stale)
— the row is deleted and creation re-attempted. -/
theorem stale_project_cleanup_iff_gone_codes_witness :
    (⟨1, "C1".toList, "/p".toList, "p".toList, none, none⟩ : ProjectRow)
        ∈ (⟨[⟨1, "C1".toList, "/p".toList, "p".toList, none, none⟩], [], [], 2, 1⟩
            : Store).projects ∧
    ((∃ code, (FetchOutcome.err (some 10003)) = .err code ∧
        (code = some 10003 ∨ code = some 50001)) ↔
      ((checkStaleProject
          ⟨[⟨1, "C1".toList, "/p".toList, "p".toList, none, none⟩], [], [], 2, 1⟩
          ⟨1, "C1".toList, "/p".toList, "p".toList, none, none⟩
          (.err (some 10003))).2 = .recreate ∧
        ∀ p ∈ (checkStaleProject
          ⟨[⟨1, "C1".toList, "/p".toList, "p".toList, none, none⟩], [], [], 2, 1⟩
          ⟨1, "C1".toList, "/p".toList, "p".toList, none, none⟩
          (.err (some 10003))).1.projects, p.id ≠ (⟨1, "C1".toList, "/p".toList,
            "p".toList, none, none⟩ : ProjectRow).id)) :=
  ⟨by decide,
   (stale_project_cleanup_iff_gone_codes _ _ (.err (some 10003)) (by decide)).1⟩

/-! ## Startup reconciliation (`database.ts`:
`migrateCanonicalProjectPaths` and `dedupeCodexThreadMappings`)

Both passes share one shape: scan rows in ascending id order, keep the
first row per key (fixing it up), re-point the child rows of every later
duplicate to the keeper, and delete the duplicate.  `mergeGo` captures the
shape; the two passes instantiate it.  The accumulator models the JS `Map`
(`keepByCanonicalPath` / `keepByCodexThreadId`); the JS `if (!keepId)`
falsy test coincides with the `Option` match because AUTOINCREMENT ids
start at 1.  `canon` abstracts `canonicalizeProjectPath` (filesystem
realpath resolution), which is idempotent. -/

def lookupA (m : List (List Char × Nat)) (k : List Char) : Option Nat :=
  (m.find? (fun e => decide (e.1 = k))).map (fun e => e.2)

def mergeGo {A C : Type} (key : A → Option (List Char)) (fix : A → A) (aid : A → Nat)
    (par : C → Nat) (setPar : Nat → C → C) :
    List (List Char × Nat) → List C → List A → List A × List C
  | _, cs, [] => ([], cs)
  | m, cs, a :: rest =>
    match key a with
    | none =>
      let r := mergeGo key fix aid par setPar m cs rest
      (a :: r.1, r.2)
    | some k =>
      match lookupA m k with
      | some keepId =>
        mergeGo key fix aid par setPar m
          (cs.map (fun c => if par c = aid a then setPar keepId c else c)) rest
      | none =>
        let r := mergeGo key fix aid par setPar ((k, aid a) :: m) cs rest
        (fix a :: r.1, r.2)

/-- The final parent id of a child whose original parent id is `pid`, after
the whole scan (composition of the per-duplicate `UPDATE`s). -/
def mergeResolve {A : Type} (key : A → Option (List Char)) (aid : A → Nat) :
    List (List Char × Nat) → List A → Nat → Nat
  | _, [], pid => pid
  | m, a :: rest, pid =>
    match key a with
    | none => mergeResolve key aid m rest pid
    | some k =>
      match lookupA m k with
      | some keepId =>
        mergeResolve key aid m rest (if pid = aid a then keepId else pid)
      | none => mergeResolve key aid ((k, aid a) :: m) rest pid

/-- The merge key of `migrateCanonicalProjectPaths`: a project's canonical
path (always present). -/
def projKey (canon : List Char → List Char) (p : ProjectRow) : Option (List Char) :=
  some (canon p.project_path)

/-- The fix-up applied to a kept project row: `UPDATE projects SET
project_path = canonicalPath` (a no-op when already canonical). -/
def projFix (canon : List Char → List Char) (p : ProjectRow) : ProjectRow :=
  { p with project_path := canon p.project_path }

/-- `UPDATE threads SET project_id = keepId WHERE project_id = …`, applied
to one row. -/
def threadRepoint (keepId : Nat) (t : ThreadRow) : ThreadRow :=
  { t with project_id := keepId }

/-- `UPDATE messages SET thread_id = keepId WHERE thread_id = …`, applied
to one row. -/
def msgRepoint (keepId : Nat) (msg : MessageRow) : MessageRow :=
  { msg with thread_id := keepId }

/-- The table contents the project-merge scan leaves behind when it runs to
completion with no constraint violation: merge Project rows sharing a
canonical path — keep the earliest, rewrite its stored path to the
canonical form, re-point threads of the losers, delete the losers. -/
def migrateMergeResult (canon : List Char → List Char) (s : Store) : Store :=
  let r := mergeGo (projKey canon) (projFix canon) (fun p => p.id)
      (fun t => t.project_id) threadRepoint [] s.threads s.projects
  { s with projects := r.1, threads := r.2 }

/-- `dedupeCodexThreadMappings`: merge Thread rows sharing a non-null codex
session id — keep the earliest, re-point messages of the losers, delete the
losers.  Rows with NULL codex ids are not scanned. -/
def dedupeCodexThreadMappings (s : Store) : Store :=
  let r := mergeGo (fun t => t.codex_thread_id) (fun t => t) (fun t => t.id)
      (fun msg => msg.thread_id) msgRepoint [] s.messages s.threads
  { s with threads := r.1, messages := r.2 }

/-- `migrateCanonicalProjectPaths` (config/index.ts 148-184) as the scan it
actually runs, with the persisted `UNIQUE` index
`idx_projects_project_path_unique` enforced when `pathIdx` is true (the
index lives in the database file, so it is present on every startup after
the first `createIndexes` run; on the very first run it does not exist
yet).  `m` is `keepByCanonicalPath`, `keptRev` the rows already scanned and
kept (paths already rewritten), `ts` the threads table.  A kept row whose
stored path differs from the canonical form is rewritten by `UPDATE
projects SET project_path = canonicalPath`; sql.js raises a uniqueness
violation when any other currently-present row — already kept or not yet
scanned — stores exactly that string, and `runMigrations` has no catch, so
the error aborts the pass with nothing further merged. -/
def migrateGo (canon : List Char → List Char) (pathIdx : Bool) :
    List (List Char × Nat) → List ProjectRow → List ThreadRow →
    List ProjectRow → Except SqlError (List ProjectRow × List ThreadRow)
  | _, keptRev, ts, [] => Except.ok (keptRev.reverse, ts)
  | m, keptRev, ts, p :: rest =>
    let k := canon p.project_path
    match lookupA m k with
    | some keepId =>
      migrateGo canon pathIdx m keptRev
        (ts.map (fun t => if t.project_id = p.id then threadRepoint keepId t else t)) rest
    | none =>
      if pathIdx && !decide (p.project_path = k)
          && (keptRev ++ rest).any (fun q => decide (q.project_path = k)) then
        Except.error SqlError.uniqueViolation
      else
        migrateGo canon pathIdx ((k, p.id) :: m) (projFix canon p :: keptRev) ts rest

/-- `migrateCanonicalProjectPaths` over a whole store: the merged store, or
the uniqueness violation that aborted the scan. -/
def migrateCanonicalProjectPaths (canon : List Char → List Char) (pathIdx : Bool)
    (s : Store) : Except SqlError Store :=
  match migrateGo canon pathIdx [] [] s.threads s.projects with
  | Except.error e => Except.error e
  | Except.ok r => Except.ok { s with projects := r.1, threads := r.2 }

/-- The startup reconciliation pass as run by `runMigrations`: project merge
then thread dedupe; an error in the merge propagates out (the dedupe stage
runs no statement that can violate a unique index — it only deletes thread
rows and rewrites `messages.thread_id`, which no unique index covers). -/
def runReconciliation (canon : List Char → List Char) (pathIdx : Bool) (s : Store) :
    Except SqlError Store :=
  match migrateCanonicalProjectPaths canon pathIdx s with
  | Except.error e => Except.error e
  | Except.ok t => Except.ok (dedupeCodexThreadMappings t)

theorem lookupA_cons_self (m : List (List Char × Nat)) (k : List Char) (i : Nat) :
    lookupA ((k, i) :: m) k = some i := by
  unfold lookupA
  rw [List.find?_cons_of_pos _ (by simp)]
  rfl

theorem lookupA_cons_ne (m : List (List Char × Nat)) (k0 k : List Char) (i : Nat)
    (h : k ≠ k0) : lookupA ((k0, i) :: m) k = lookupA m k := by
  have h2 : ¬(k0 = k) := fun hh => h hh.symm
  unfold lookupA
  rw [List.find?_cons_of_neg _ (by simp [h2])]

theorem lookupA_cons_none {m : List (List Char × Nat)} {k0 k : List Char} {i : Nat}
    (h : lookupA ((k0, i) :: m) k = none) : lookupA m k = none ∧ k ≠ k0 := by
  by_cases hk : k = k0
  · subst hk
    rw [lookupA_cons_self] at h
    exact Option.noConfusion h
  · rw [lookupA_cons_ne m k0 k i hk] at h
    exact ⟨h, hk⟩

theorem lookupA_eq_none (m : List (List Char × Nat)) (k : List Char)
    (h : ∀ e ∈ m, e.1 ≠ k) : lookupA m k = none := by
  induction m with
  | nil => rfl
  | cons e m ih =>
    have he : e.1 ≠ k := h e (List.mem_cons_self e m)
    cases e with
    | mk k0 i =>
      rw [lookupA_cons_ne m k0 k i (fun hh => he hh.symm)]
      exact ih (fun e2 he2 => h e2 (List.mem_cons_of_mem _ he2))

theorem lookupA_mem {m : List (List Char × Nat)} {k : List Char} {i : Nat}
    (h : lookupA m k = some i) : (k, i) ∈ m := by
  unfold lookupA at h
  cases hf : m.find? (fun e => decide (e.1 = k)) with
  | none => rw [hf] at h; exact Option.noConfusion h
  | some e =>
    rw [hf] at h
    have he : e ∈ m := List.mem_of_find?_eq_some hf
    have hp := List.find?_some hf
    have hk : e.1 = k := of_decide_eq_true hp
    have hi : e.2 = i := by simpa using h
    have : e = (k, i) := Prod.ext hk hi
    rw [← this]
    exact he

section MergeLemmas

variable {A C : Type} (key : A → Option (List Char)) (fix : A → A) (aid : A → Nat)
  (par : C → Nat) (setPar : Nat → C → C)

theorem mergeGo_kept_keys (hkfix : ∀ a, key (fix a) = key a) :
    ∀ (as : List A) (m : List (List Char × Nat)) (cs : List C),
      (∀ a' ∈ (mergeGo key fix aid par setPar m cs as).1,
        ∀ k, key a' = some k → lookupA m k = none) ∧
      (mergeGo key fix aid par setPar m cs as).1.Pairwise
        (fun x y => ∀ k, key x = some k → key y ≠ some k) := by
  intro as
  induction as with
  | nil =>
    intro m cs
    exact ⟨by simp [mergeGo], by simp [mergeGo]⟩
  | cons a rest ih =>
    intro m cs
    cases hka : key a with
    | none =>
      simp only [mergeGo, hka]
      obtain ⟨ih1, ih2⟩ := ih m cs
      constructor
      · intro a' ha' k hk
        rcases List.mem_cons.mp ha' with rfl | hmem
        · rw [hka] at hk
          exact Option.noConfusion hk
        · exact ih1 a' hmem k hk
      · refine List.Pairwise.cons ?_ ih2
        intro y _ k hk
        rw [hka] at hk
        exact Option.noConfusion hk
    | some k =>
      cases hlk : lookupA m k with
      | some keepId =>
        simp only [mergeGo, hka, hlk]
        exact ih m _
      | none =>
        simp only [mergeGo, hka, hlk]
        obtain ⟨ih1, ih2⟩ := ih ((k, aid a) :: m) cs
        constructor
        · intro a' ha' k2 hk2
          rcases List.mem_cons.mp ha' with rfl | hmem
          · rw [hkfix, hka] at hk2
            injection hk2 with hk3
            subst hk3
            exact hlk
          · exact (lookupA_cons_none (ih1 a' hmem k2 hk2)).1
        · refine List.Pairwise.cons ?_ ih2
          intro y hy k2 hk2 hky
          rw [hkfix, hka] at hk2
          injection hk2 with hk3
          have hnone := ih1 y hy k2 hky
          rw [← hk3] at hnone
          rw [lookupA_cons_self] at hnone
          exact Option.noConfusion hnone

theorem mergeGo_keeper_exists (hkfix : ∀ a, key (fix a) = key a) :
    ∀ (as : List A) (m : List (List Char × Nat)) (cs : List C),
      ∀ a ∈ as, ∀ k, key a = some k → lookupA m k = none →
        ∃ a' ∈ (mergeGo key fix aid par setPar m cs as).1, key a' = some k := by
  intro as
  induction as with
  | nil =>
    intro m cs a ha
    simp at ha
  | cons a0 rest ih =>
    intro m cs a ha k hk hnone
    rcases List.mem_cons.mp ha with rfl | hmem
    · simp only [mergeGo, hk, hnone]
      exact ⟨fix a, List.mem_cons_self _ _, by rw [hkfix]; exact hk⟩
    · cases hka0 : key a0 with
      | none =>
        simp only [mergeGo, hka0]
        obtain ⟨a', ha', hk'⟩ := ih m cs a hmem k hk hnone
        exact ⟨a', List.mem_cons_of_mem _ ha', hk'⟩
      | some k0 =>
        cases hlk : lookupA m k0 with
        | some keepId =>
          simp only [mergeGo, hka0, hlk]
          exact ih m _ a hmem k hk hnone
        | none =>
          simp only [mergeGo, hka0, hlk]
          by_cases hkk : k = k0
          · subst hkk
            exact ⟨fix a0, List.mem_cons_self _ _, by rw [hkfix]; exact hka0⟩
          · obtain ⟨a', ha', hk'⟩ := ih ((k0, aid a0) :: m) cs a hmem k hk
              (by rw [lookupA_cons_ne m k0 k _ hkk]; exact hnone)
            exact ⟨a', List.mem_cons_of_mem _ ha', hk'⟩

theorem mergeGo_keeper_min (hkfix : ∀ a, key (fix a) = key a)
    (hidfix : ∀ a, aid (fix a) = aid a) :
    ∀ (as : List A) (m : List (List Char × Nat)) (cs : List C),
      as.Pairwise (fun x y => aid x < aid y) →
      ∀ a' ∈ (mergeGo key fix aid par setPar m cs as).1, ∀ a ∈ as,
        ∀ k, key a' = some k → key a = some k → aid a' ≤ aid a := by
  intro as
  induction as with
  | nil =>
    intro m cs _ a' ha'
    simp [mergeGo] at ha'
  | cons a0 rest ih =>
    intro m cs hsorted a' ha' a ha k hk' hk
    have hs1 : ∀ y ∈ rest, aid a0 < aid y := (List.pairwise_cons.mp hsorted).1
    have hs2 := (List.pairwise_cons.mp hsorted).2
    cases hka0 : key a0 with
    | none =>
      simp only [mergeGo, hka0] at ha'
      rcases List.mem_cons.mp ha' with rfl | hmem'
      · rw [hka0] at hk'
        exact Option.noConfusion hk'
      · rcases List.mem_cons.mp ha with rfl | hmem
        · rw [hka0] at hk
          exact Option.noConfusion hk
        · exact ih m cs hs2 a' hmem' a hmem k hk' hk
    | some k0 =>
      cases hlk : lookupA m k0 with
      | some keepId =>
        simp only [mergeGo, hka0, hlk] at ha'
        rcases List.mem_cons.mp ha with rfl | hmem
        · rw [hka0] at hk
          injection hk with hkk
          have hknone := (mergeGo_kept_keys key fix aid par setPar hkfix rest m
            (cs.map (fun c => if par c = aid a then setPar keepId c else c))).1 a' ha' k hk'
          rw [← hkk] at hknone
          rw [hlk] at hknone
          exact Option.noConfusion hknone
        · exact ih m _ hs2 a' ha' a hmem k hk' hk
      | none =>
        simp only [mergeGo, hka0, hlk] at ha'
        rcases List.mem_cons.mp ha' with rfl | hmem'
        · rw [hkfix, hka0] at hk'
          injection hk' with hkk
          rw [hidfix]
          rcases List.mem_cons.mp ha with rfl | hmem
          · exact le_refl _
          · exact le_of_lt (hs1 a hmem)
        · rcases List.mem_cons.mp ha with rfl | hmem
          · rw [hka0] at hk
            injection hk with hkk
            have hknone := (mergeGo_kept_keys key fix aid par setPar hkfix rest
              ((k0, aid a) :: m) cs).1 a' hmem' k hk'
            rw [← hkk] at hknone
            rw [lookupA_cons_self] at hknone
            exact Option.noConfusion hknone
          · exact ih ((k0, aid a0) :: m) cs hs2 a' hmem' a hmem k hk' hk

theorem mergeGo_children (hback : ∀ c, setPar (par c) c = c)
    (hpar : ∀ n c, par (setPar n c) = n)
    (hover : ∀ n j c, setPar n (setPar j c) = setPar n c) :
    ∀ (as : List A) (m : List (List Char × Nat)) (cs : List C),
      (mergeGo key fix aid par setPar m cs as).2
        = cs.map (fun c => setPar (mergeResolve key aid m as (par c)) c) := by
  intro as
  induction as with
  | nil =>
    intro m cs
    simp only [mergeGo, mergeResolve]
    rw [List.map_congr_left (fun c _ => hback c)]
    exact (List.map_id cs).symm
  | cons a rest ih =>
    intro m cs
    cases hka : key a with
    | none =>
      simp only [mergeGo, mergeResolve, hka]
      exact ih m cs
    | some k =>
      cases hlk : lookupA m k with
      | none =>
        simp only [mergeGo, mergeResolve, hka, hlk]
        exact ih _ cs
      | some keepId =>
        simp only [mergeGo, mergeResolve, hka, hlk]
        rw [ih m _, List.map_map]
        apply List.map_congr_left
        intro c _
        simp only [Function.comp]
        by_cases hc : par c = aid a
        · rw [if_pos hc, if_pos hc, hpar, hover]
        · rw [if_neg hc, if_neg hc]

theorem mergeResolve_stable :
    ∀ (as : List A) (m : List (List Char × Nat)) (pid : Nat),
      (∀ a ∈ as, pid ≠ aid a) → mergeResolve key aid m as pid = pid := by
  intro as
  induction as with
  | nil =>
    intro m pid _
    rfl
  | cons a rest ih =>
    intro m pid h
    cases hka : key a with
    | none =>
      simp only [mergeResolve, hka]
      exact ih m pid (fun y hy => h y (List.mem_cons_of_mem _ hy))
    | some k =>
      cases hlk : lookupA m k with
      | some keepId =>
        simp only [mergeResolve, hka, hlk]
        rw [if_neg (h a (List.mem_cons_self _ _))]
        exact ih m pid (fun y hy => h y (List.mem_cons_of_mem _ hy))
      | none =>
        simp only [mergeResolve, hka, hlk]
        exact ih _ pid (fun y hy => h y (List.mem_cons_of_mem _ hy))

theorem mergeResolve_keeper (hkfix : ∀ a, key (fix a) = key a)
    (hidfix : ∀ a, aid (fix a) = aid a) :
    ∀ (as : List A) (m : List (List Char × Nat)) (cs : List C),
      as.Pairwise (fun x y => aid x < aid y) →
      (∀ e ∈ m, ∀ a2 ∈ as, e.2 < aid a2) →
      ∀ a ∈ as, ∀ k, key a = some k →
        ((∀ i, lookupA m k = some i → mergeResolve key aid m as (aid a) = i) ∧
         (lookupA m k = none →
           ∃ q ∈ (mergeGo key fix aid par setPar m cs as).1,
             key q = some k ∧ mergeResolve key aid m as (aid a) = aid q)) := by
  intro as
  induction as with
  | nil =>
    intro m cs _ _ a ha
    simp at ha
  | cons a0 rest ih =>
    intro m cs hsorted hm a ha k hk
    have hs1 : ∀ y ∈ rest, aid a0 < aid y := (List.pairwise_cons.mp hsorted).1
    have hs2 := (List.pairwise_cons.mp hsorted).2
    rcases List.mem_cons.mp ha with rfl | hmem
    · -- the row itself is the head of the scan
      constructor
      · intro i hi
        simp only [mergeResolve, hk, hi, if_true]
        apply mergeResolve_stable
        intro a2 ha2
        have : i < aid a2 := hm (k, i) (lookupA_mem hi) a2 (List.mem_cons_of_mem _ ha2)
        omega
      · intro hnone
        simp only [mergeResolve, mergeGo, hk, hnone]
        refine ⟨fix a, List.mem_cons_self _ _, by rw [hkfix]; exact hk, ?_⟩
        rw [hidfix]
        apply mergeResolve_stable
        intro a2 ha2
        have := hs1 a2 ha2
        omega
    · cases hka0 : key a0 with
      | none =>
        simp only [mergeResolve, mergeGo, hka0]
        obtain ⟨c1, c2⟩ := ih m cs hs2
          (fun e he a2 ha2 => hm e he a2 (List.mem_cons_of_mem _ ha2)) a hmem k hk
        refine ⟨c1, ?_⟩
        intro hnone
        obtain ⟨q, hq, hqk, hqr⟩ := c2 hnone
        exact ⟨q, List.mem_cons_of_mem _ hq, hqk, hqr⟩
      | some k0 =>
        cases hlk0 : lookupA m k0 with
        | some keepId =>
          simp only [mergeResolve, mergeGo, hka0, hlk0]
          have hne : aid a ≠ aid a0 := by
            have := hs1 a hmem
            omega
          rw [if_neg hne]
          exact ih m _ hs2
            (fun e he a2 ha2 => hm e he a2 (List.mem_cons_of_mem _ ha2)) a hmem k hk
        | none =>
          simp only [mergeResolve, mergeGo, hka0, hlk0]
          have hm2 : ∀ e ∈ ((k0, aid a0) :: m), ∀ a2 ∈ rest, e.2 < aid a2 := by
            intro e he a2 ha2
            rcases List.mem_cons.mp he with rfl | hmem2
            · exact hs1 a2 ha2
            · exact hm e hmem2 a2 (List.mem_cons_of_mem _ ha2)
          obtain ⟨c1, c2⟩ := ih ((k0, aid a0) :: m) cs hs2 hm2 a hmem k hk
          by_cases hkk : k = k0
          · subst hkk
            constructor
            · intro i hi
              rw [hi] at hlk0
              exact Option.noConfusion hlk0
            · intro _
              have hres := c1 (aid a0) (lookupA_cons_self m k (aid a0))
              exact ⟨fix a0, List.mem_cons_self _ _,
                by rw [hkfix]; exact hka0, by rw [hidfix]; exact hres⟩
          · constructor
            · intro i hi
              apply c1
              rw [lookupA_cons_ne m k0 k _ hkk]
              exact hi
            · intro hnone
              obtain ⟨q, hq, hqk, hqr⟩ := c2
                (by rw [lookupA_cons_ne m k0 k _ hkk]; exact hnone)
              exact ⟨q, List.mem_cons_of_mem _ hq, hqk, hqr⟩

theorem mergeGo_nodup :
    ∀ (as : List A) (m : List (List Char × Nat)) (cs : List C),
      (∀ e ∈ m, ∀ a ∈ as, key a ≠ some e.1) →
      as.Pairwise (fun x y => ∀ k, key x = some k → key y ≠ some k) →
      (mergeGo key fix aid par setPar m cs as).1
          = as.map (fun a => match key a with | some _ => fix a | none => a) ∧
      (mergeGo key fix aid par setPar m cs as).2 = cs := by
  intro as
  induction as with
  | nil =>
    intro m cs _ _
    exact ⟨by simp [mergeGo], by simp [mergeGo]⟩
  | cons a0 rest ih =>
    intro m cs hm hpair
    have hp1 := (List.pairwise_cons.mp hpair).1
    have hp2 := (List.pairwise_cons.mp hpair).2
    cases hka0 : key a0 with
    | none =>
      simp only [mergeGo, hka0]
      obtain ⟨r1, r2⟩ := ih m cs
        (fun e he a2 ha2 => hm e he a2 (List.mem_cons_of_mem _ ha2)) hp2
      refine ⟨?_, r2⟩
      rw [List.map_cons, hka0, r1]
    | some k0 =>
      have hnone : lookupA m k0 = none := by
        apply lookupA_eq_none
        intro e he hek
        exact hm e he a0 (List.mem_cons_self _ _) (by rw [hka0, hek])
      simp only [mergeGo, hka0, hnone]
      have hm2 : ∀ e ∈ ((k0, aid a0) :: m), ∀ a2 ∈ rest, key a2 ≠ some e.1 := by
        intro e he a2 ha2
        rcases List.mem_cons.mp he with rfl | hmem2
        · exact hp1 a2 ha2 k0 hka0
        · exact hm e hmem2 a2 (List.mem_cons_of_mem _ ha2)
      obtain ⟨r1, r2⟩ := ih ((k0, aid a0) :: m) cs hm2 hp2
      refine ⟨?_, r2⟩
      rw [List.map_cons, hka0, r1]

end MergeLemmas

theorem migrateGo_ok_eq (canon : List Char → List Char) (pathIdx : Bool)
    (ps : List ProjectRow) :
    ∀ (m : List (List Char × Nat)) (keptRev : List ProjectRow)
      (ts : List ThreadRow) (r : List ProjectRow × List ThreadRow),
    migrateGo canon pathIdx m keptRev ts ps = Except.ok r →
    r = (keptRev.reverse ++ (mergeGo (projKey canon) (projFix canon)
          (fun p : ProjectRow => p.id) (fun t : ThreadRow => t.project_id)
          threadRepoint m ts ps).1,
        (mergeGo (projKey canon) (projFix canon) (fun p : ProjectRow => p.id)
          (fun t : ThreadRow => t.project_id) threadRepoint m ts ps).2) := by
  induction ps with
  | nil =>
    intro m keptRev ts r h
    simp only [migrateGo] at h
    injection h with h
    rw [← h]
    simp [mergeGo]
  | cons p rest ih =>
    intro m keptRev ts r h
    simp only [migrateGo] at h
    simp only [mergeGo, projKey]
    cases hl : lookupA m (canon p.project_path) with
    | some keepId =>
      rw [hl] at h
      dsimp only at h ⊢
      exact ih _ _ _ _ h
    | none =>
      rw [hl] at h
      dsimp only at h ⊢
      split_ifs at h with hv
      rw [ih _ _ _ _ h]
      simp [List.reverse_cons, List.append_assoc]

theorem migrateGo_false_ok (canon : List Char → List Char) (ps : List ProjectRow) :
    ∀ (m : List (List Char × Nat)) (keptRev : List ProjectRow) (ts : List ThreadRow),
    ∃ r, migrateGo canon false m keptRev ts ps = Except.ok r := by
  induction ps with
  | nil =>
    intro m keptRev ts
    exact ⟨(keptRev.reverse, ts), rfl⟩
  | cons p rest ih =>
    intro m keptRev ts
    simp only [migrateGo]
    cases hl : lookupA m (canon p.project_path) with
    | some keepId => exact ih m keptRev _
    | none =>
      simp only [Bool.false_and, Bool.false_and, if_neg]
      exact ih _ _ ts

theorem migrate_ok_store (canon : List Char → List Char) (pathIdx : Bool)
    (s smid : Store)
    (h : migrateCanonicalProjectPaths canon pathIdx s = Except.ok smid) :
    smid = migrateMergeResult canon s := by
  rw [migrateCanonicalProjectPaths] at h
  cases hgo : migrateGo canon pathIdx [] [] s.threads s.projects with
  | error e =>
    rw [hgo] at h
    exact Except.noConfusion h
  | ok r =>
    rw [hgo] at h
    injection h with h
    have hr := migrateGo_ok_eq canon pathIdx s.projects [] [] s.threads r hgo
    rw [← h, hr]
    rfl


/-- C8 (amended): the startup reconciliation pass (project merge then
thread dedupe, over rows in ascending id order with an idempotent
canonicalizer) can abort: with the persisted unique path index, a keeper
whose stored path must be rewritten collides with any other row that
already stores the canonical string and the pass raises un-merged (see the
counterexample); only on the very first run, before the index exists, is
the scan total (last conjunct).  Whenever the merge stage does complete
(`hmig`), the pass returns the deduped merged store and: no two surviving
Project rows canonicalize to the same path; no two surviving Thread rows
share a non-null external-session id; for every original row a survivor
with its key exists and every survivor is the earliest (smallest-id) row of
its key; threads of merged projects are re-pointed at the surviving project
and messages of merged threads at the surviving thread; and on a store with
no duplicates the pass leaves every row unchanged except that stored
project paths are rewritten to canonical form — a store whose paths are
already canonical is returned entirely unchanged. -/
theorem reconciliation_merges_duplicates (canon : List Char → List Char)
    (pathIdx : Bool) (s smid : Store)
    (hcanon : ∀ x, canon (canon x) = canon x)
    (hsp : s.projects.Pairwise (fun x y => x.id < y.id))
    (hst : s.threads.Pairwise (fun x y => x.id < y.id))
    (hmig : migrateCanonicalProjectPaths canon pathIdx s = Except.ok smid) :
    runReconciliation canon pathIdx s
      = Except.ok (dedupeCodexThreadMappings smid) ∧
    (dedupeCodexThreadMappings smid).projects.Pairwise
      (fun x y => canon x.project_path ≠ canon y.project_path) ∧
    (dedupeCodexThreadMappings smid).threads.Pairwise
      (fun x y => ∀ c, x.codex_thread_id = some c → y.codex_thread_id ≠ some c) ∧
    (∀ p ∈ s.projects, ∃ q ∈ (dedupeCodexThreadMappings smid).projects,
      canon q.project_path = canon p.project_path ∧ q.id ≤ p.id) ∧
    (∀ q ∈ (dedupeCodexThreadMappings smid).projects, ∀ p ∈ s.projects,
      canon p.project_path = canon q.project_path → q.id ≤ p.id) ∧
    (∀ t ∈ s.threads, ∀ c, t.codex_thread_id = some c →
      ∃ u ∈ (dedupeCodexThreadMappings smid).threads,
        u.codex_thread_id = some c ∧ u.id ≤ t.id) ∧
    (∀ t ∈ s.threads, ∀ p ∈ s.projects, t.project_id = p.id →
      ∃ u ∈ smid.threads,
        u.id = t.id ∧ u.discord_thread_id = t.discord_thread_id ∧
        u.codex_thread_id = t.codex_thread_id ∧
        ∃ q ∈ smid.projects,
          canon q.project_path = canon p.project_path ∧ u.project_id = q.id) ∧
    (∀ msg ∈ s.messages, ∀ t ∈ smid.threads,
      msg.thread_id = t.id → ∀ c, t.codex_thread_id = some c →
      ∃ m2 ∈ (dedupeCodexThreadMappings smid).messages,
        m2.id = msg.id ∧ m2.content = msg.content ∧
        ∃ u ∈ (dedupeCodexThreadMappings smid).threads,
          u.codex_thread_id = some c ∧ m2.thread_id = u.id) ∧
    (s.projects.Pairwise (fun x y => canon x.project_path ≠ canon y.project_path) →
      s.threads.Pairwise (fun x y => ∀ c, x.codex_thread_id = some c →
        y.codex_thread_id ≠ some c) →
      (dedupeCodexThreadMappings smid).projects = s.projects.map (projFix canon) ∧
      (dedupeCodexThreadMappings smid).threads = s.threads ∧
      (dedupeCodexThreadMappings smid).messages = s.messages ∧
      ((∀ p ∈ s.projects, canon p.project_path = p.project_path) →
        dedupeCodexThreadMappings smid = s)) ∧
    (∃ t, migrateCanonicalProjectPaths canon false s = Except.ok t) := by
  have hsm : smid = migrateMergeResult canon s :=
    migrate_ok_store canon pathIdx s smid hmig
  subst hsm
  have hkfixP : ∀ p, projKey canon (projFix canon p) = projKey canon p := by
    intro p
    simp [projKey, projFix, hcanon]
  have hidfixP : ∀ p : ProjectRow, (projFix canon p).id = p.id := fun p => rfl
  have hbackT : ∀ t : ThreadRow, threadRepoint t.project_id t = t := fun t => rfl
  have hparT : ∀ n (t : ThreadRow), (threadRepoint n t).project_id = n := fun n t => rfl
  have hoverT : ∀ n j (t : ThreadRow), threadRepoint n (threadRepoint j t)
      = threadRepoint n t := fun n j t => rfl
  have hbackM : ∀ m : MessageRow, msgRepoint m.thread_id m = m := fun m => rfl
  have hparM : ∀ n (m : MessageRow), (msgRepoint n m).thread_id = n := fun n m => rfl
  have hoverM : ∀ n j (m : MessageRow), msgRepoint n (msgRepoint j m)
      = msgRepoint n m := fun n j m => rfl
  have hkfixT : ∀ t : ThreadRow,
      (fun t : ThreadRow => t.codex_thread_id) ((fun t : ThreadRow => t) t)
        = (fun t : ThreadRow => t.codex_thread_id) t := fun t => rfl
  have hidfixT : ∀ t : ThreadRow,
      (fun t : ThreadRow => t.id) ((fun t : ThreadRow => t) t)
        = (fun t : ThreadRow => t.id) t := fun t => rfl
  have hthreads_map : (migrateMergeResult canon s).threads
      = s.threads.map (fun t => threadRepoint
          (mergeResolve (projKey canon) (fun p : ProjectRow => p.id) [] s.projects t.project_id) t) :=
    mergeGo_children (projKey canon) (projFix canon) (fun p : ProjectRow => p.id)
      (fun t : ThreadRow => t.project_id) threadRepoint hbackT hparT hoverT s.projects [] s.threads
  have hsorted2 : (migrateMergeResult canon s).threads.Pairwise
      (fun x y => x.id < y.id) := by
    rw [hthreads_map, List.pairwise_map]
    exact hst.imp (fun h => h)
  refine ⟨?_, ?_, ?_, ?_, ?_, ?_, ?_, ?_, ?_, ?_⟩
  · -- (0) the full pass succeeds and returns the deduped merged store
    rw [runReconciliation, hmig]
  · -- (1) pairwise canonical paths among surviving projects
    have hp := (mergeGo_kept_keys (projKey canon) (projFix canon) (fun p : ProjectRow => p.id)
      (fun t : ThreadRow => t.project_id) threadRepoint hkfixP s.projects [] s.threads).2
    refine hp.imp ?_
    intro x y h heq
    exact h (canon x.project_path) rfl (by rw [projKey, heq])
  · -- (2) pairwise non-null codex ids among surviving threads
    have hp := (mergeGo_kept_keys (fun t : ThreadRow => t.codex_thread_id)
      (fun t : ThreadRow => t) (fun t : ThreadRow => t.id) (fun m : MessageRow => m.thread_id) msgRepoint hkfixT
      (migrateMergeResult canon s).threads []
      (migrateMergeResult canon s).messages).2
    exact hp
  · -- (3) survivor exists and is no later than each original project
    intro p hp
    obtain ⟨q, hq, hqk⟩ := mergeGo_keeper_exists (projKey canon) (projFix canon)
      (fun p : ProjectRow => p.id) (fun t : ThreadRow => t.project_id) threadRepoint hkfixP s.projects []
      s.threads p hp (canon p.project_path) rfl rfl
    have hqeq : canon q.project_path = canon p.project_path := by
      have := hqk
      rw [projKey] at this
      injection this
    refine ⟨q, hq, hqeq, ?_⟩
    exact mergeGo_keeper_min (projKey canon) (projFix canon) (fun p : ProjectRow => p.id)
      (fun t : ThreadRow => t.project_id) threadRepoint hkfixP hidfixP s.projects [] s.threads hsp
      q hq p hp (canon q.project_path) rfl
      (by rw [projKey, hqeq])
  · -- (4) each surviving project is the earliest of its canonical key
    intro q hq p hp heq
    exact mergeGo_keeper_min (projKey canon) (projFix canon) (fun p : ProjectRow => p.id)
      (fun t : ThreadRow => t.project_id) threadRepoint hkfixP hidfixP s.projects [] s.threads hsp
      q hq p hp (canon q.project_path) rfl (by rw [projKey, heq])
  · -- (5) surviving thread per codex id, no later than each original
    intro t ht c hc
    have htmem : threadRepoint
        (mergeResolve (projKey canon) (fun p : ProjectRow => p.id) [] s.projects t.project_id) t
        ∈ (migrateMergeResult canon s).threads := by
      rw [hthreads_map]
      exact List.mem_map_of_mem _ ht
    obtain ⟨u, hu, huk⟩ := mergeGo_keeper_exists (fun t : ThreadRow => t.codex_thread_id)
      (fun t : ThreadRow => t) (fun t : ThreadRow => t.id) (fun m : MessageRow => m.thread_id) msgRepoint hkfixT
      (migrateMergeResult canon s).threads []
      (migrateMergeResult canon s).messages _ htmem c hc rfl
    refine ⟨u, hu, huk, ?_⟩
    exact mergeGo_keeper_min (fun t : ThreadRow => t.codex_thread_id)
      (fun t : ThreadRow => t) (fun t : ThreadRow => t.id) (fun m : MessageRow => m.thread_id) msgRepoint hkfixT hidfixT
      (migrateMergeResult canon s).threads []
      (migrateMergeResult canon s).messages hsorted2 u hu
      (threadRepoint
        (mergeResolve (projKey canon) (fun p : ProjectRow => p.id) [] s.projects t.project_id) t)
      htmem c huk hc
  · -- (6) threads of merged projects point at the surviving project
    intro t ht p hp htp
    obtain ⟨-, hkeep⟩ := mergeResolve_keeper (projKey canon) (projFix canon)
      (fun p : ProjectRow => p.id) (fun t : ThreadRow => t.project_id) threadRepoint hkfixP hidfixP s.projects []
      s.threads hsp (by intro e he; simp at he) p hp (canon p.project_path) rfl
    obtain ⟨q, hq, hqk, hqr⟩ := hkeep rfl
    refine ⟨threadRepoint
        (mergeResolve (projKey canon) (fun p : ProjectRow => p.id) [] s.projects t.project_id) t,
      ?_, rfl, rfl, rfl, q, hq, ?_, ?_⟩
    · rw [hthreads_map]
      exact List.mem_map_of_mem _ ht
    · rw [projKey] at hqk
      injection hqk
    · rw [hparT, htp]
      exact hqr
  · -- (7) messages of merged threads point at the surviving thread
    intro msg hmsg t ht hmt c hc
    obtain ⟨-, hkeep⟩ := mergeResolve_keeper (fun t : ThreadRow => t.codex_thread_id)
      (fun t : ThreadRow => t) (fun t : ThreadRow => t.id) (fun m : MessageRow => m.thread_id) msgRepoint hkfixT hidfixT
      (migrateMergeResult canon s).threads []
      (migrateMergeResult canon s).messages hsorted2
      (by intro e he; simp at he) t ht c hc
    obtain ⟨u, hu, huk, hur⟩ := hkeep rfl
    have hmsgs_map : (dedupeCodexThreadMappings (migrateMergeResult canon s)).messages
        = (migrateMergeResult canon s).messages.map (fun m => msgRepoint
            (mergeResolve (fun t : ThreadRow => t.codex_thread_id) (fun t : ThreadRow => t.id) []
              (migrateMergeResult canon s).threads m.thread_id) m) :=
      mergeGo_children (fun t : ThreadRow => t.codex_thread_id) (fun t : ThreadRow => t)
        (fun t : ThreadRow => t.id) (fun m : MessageRow => m.thread_id) msgRepoint hbackM hparM hoverM
        (migrateMergeResult canon s).threads []
        (migrateMergeResult canon s).messages
    refine ⟨msgRepoint (mergeResolve (fun t : ThreadRow => t.codex_thread_id)
        (fun t : ThreadRow => t.id) [] (migrateMergeResult canon s).threads msg.thread_id)
        msg, ?_, rfl, rfl, u, hu, huk, ?_⟩
    · rw [hmsgs_map]
      exact List.mem_map_of_mem _ hmsg
    · rw [hparM, hmt]
      exact hur
  · -- (8) a duplicate-free store is only path-canonicalized
    intro hnp hnt
    have hp2 : s.projects.Pairwise
        (fun x y => ∀ k, projKey canon x = some k → projKey canon y ≠ some k) := by
      refine hnp.imp ?_
      intro x y h k hk1 hk2
      rw [projKey] at hk1 hk2
      injection hk1 with h1
      injection hk2 with h2
      exact h (h1.trans h2.symm)
    obtain ⟨hproj, hthr⟩ := mergeGo_nodup (projKey canon) (projFix canon)
      (fun p : ProjectRow => p.id) (fun t : ThreadRow => t.project_id) threadRepoint s.projects [] s.threads
      (by intro e he; simp at he) hp2
    have hprojmap : (migrateMergeResult canon s).projects
        = s.projects.map (projFix canon) := by
      rw [show (migrateMergeResult canon s).projects
          = (mergeGo (projKey canon) (projFix canon) (fun p : ProjectRow => p.id)
              (fun t : ThreadRow => t.project_id) threadRepoint [] s.threads s.projects).1 from rfl,
        hproj]
      apply List.map_congr_left
      intro a _
      rfl
    have hthrmap : (migrateMergeResult canon s).threads = s.threads := hthr
    obtain ⟨hthr2, hmsg2⟩ := mergeGo_nodup (fun t : ThreadRow => t.codex_thread_id)
      (fun t : ThreadRow => t) (fun t : ThreadRow => t.id) (fun m : MessageRow => m.thread_id) msgRepoint
      (migrateMergeResult canon s).threads []
      (migrateMergeResult canon s).messages
      (by intro e he; simp at he) (by rw [hthrmap]; exact hnt)
    have hmsgid : (dedupeCodexThreadMappings (migrateMergeResult canon s)).messages = s.messages := hmsg2
    have hthrid : (dedupeCodexThreadMappings (migrateMergeResult canon s)).threads = s.threads := by
      rw [show (dedupeCodexThreadMappings (migrateMergeResult canon s)).threads
          = (mergeGo (fun t : ThreadRow => t.codex_thread_id) (fun t : ThreadRow => t)
              (fun t : ThreadRow => t.id) (fun m : MessageRow => m.thread_id) msgRepoint []
              (migrateMergeResult canon s).messages
              (migrateMergeResult canon s).threads).1 from rfl,
        hthr2, hthrmap]
      have : ∀ a : ThreadRow,
          (match a.codex_thread_id with | some _ => a | none => a) = a := by
        intro a
        cases a.codex_thread_id <;> rfl
      rw [List.map_congr_left (fun a _ => this a), List.map_id']
    refine ⟨hprojmap, hthrid, hmsgid, ?_⟩
    intro hfix
    have hprojid : (dedupeCodexThreadMappings (migrateMergeResult canon s)).projects = s.projects := by
      rw [show (dedupeCodexThreadMappings (migrateMergeResult canon s)).projects
          = (migrateMergeResult canon s).projects from rfl, hprojmap]
      have : ∀ p ∈ s.projects, projFix canon p = p := by
        intro p hp
        rw [projFix]
        rw [hfix p hp]
      rw [List.map_congr_left this, List.map_id']
    have h4 : (dedupeCodexThreadMappings (migrateMergeResult canon s)).nextProjectId = s.nextProjectId := rfl
    have h5 : (dedupeCodexThreadMappings (migrateMergeResult canon s)).nextThreadId = s.nextThreadId := rfl
    calc dedupeCodexThreadMappings (migrateMergeResult canon s)
        = ⟨(dedupeCodexThreadMappings (migrateMergeResult canon s)).projects, (dedupeCodexThreadMappings (migrateMergeResult canon s)).threads,
           (dedupeCodexThreadMappings (migrateMergeResult canon s)).messages, (dedupeCodexThreadMappings (migrateMergeResult canon s)).nextProjectId,
           (dedupeCodexThreadMappings (migrateMergeResult canon s)).nextThreadId⟩ := rfl
      _ = ⟨s.projects, s.threads, s.messages, s.nextProjectId, s.nextThreadId⟩ := by
          rw [hprojid, hthrid, hmsgid, h4, h5]
      _ = s := rfl
  · -- (9) without the unique path index (first run) the scan cannot abort
    obtain ⟨r, hrg⟩ := migrateGo_false_ok canon s.projects [] [] s.threads
    exact ⟨{ s with projects := r.1, threads := r.2 },
      by rw [migrateCanonicalProjectPaths, hrg]⟩

/-- Canonicalizer used in the C8 counterexample: it rewrites the stored
path `a` to `/a` and fixes everything else (so it is idempotent). -/
def c8canon : List Char → List Char :=
  fun x => if x = 'a' :: [] then '/' :: 'a' :: [] else x

/-- Store used in the C8 counterexample's no-duplicates part: one project
whose stored path is not canonical, no threads, no messages, hence no
duplicates of any kind. -/
def c8store : Store :=
  ⟨[⟨1, 'c' :: [], 'a' :: [], 'n' :: [], none, none⟩], [], [], 2, 1⟩

/-- Store used in the C8 counterexample's abort part: the exact scenario the
pass exists for — canonicalization has tightened, an older row stores the
stale spelling `a` and a newer row already stores the canonical `/a`. -/
def c8dupStore : Store :=
  ⟨[⟨1, 'c' :: [], 'a' :: [], 'n' :: [], none, none⟩,
    ⟨2, 'd' :: [], '/' :: 'a' :: [], 'm' :: [], none, none⟩], [], [], 3, 1⟩

/-- C8 counterexample: two failures of the claim.  (1) On `c8dupStore` — a
duplicate pair the pass is meant to merge — the keeper's path-rewrite
`UPDATE` collides with the newer row that already stores the canonical
string, the persisted unique path index raises, and the pass aborts
un-merged instead of establishing the claimed invariants.  (2) On the
duplicate-free `c8store` the pass completes but does not leave every row
unchanged: the stored path is rewritten to canonical form. -/
theorem c8_counterexample :
    runReconciliation c8canon true c8dupStore
      = Except.error SqlError.uniqueViolation ∧
    c8store.projects.Pairwise
      (fun x y => c8canon x.project_path ≠ c8canon y.project_path) ∧
    c8store.threads = [] ∧
    runReconciliation c8canon true c8store ≠ Except.ok c8store := by
  refine ⟨by decide, by decide, by decide, by decide⟩

/-- Identity canonicalizer for the C8 witness. -/
def c8wcanon : List Char → List Char := fun x => x

/-- Store for the C8 witness: two projects sharing a canonical path and two
threads sharing an external-session id, plus a message on the losing
thread.  All stored paths are already canonical, so the merge scan
completes even with the unique path index present. -/
def c8wstore : Store :=
  ⟨[⟨1, 'x' :: [], 'a' :: [], 'n' :: [], none, none⟩,
    ⟨2, 'y' :: [], 'a' :: [], 'm' :: [], none, none⟩],
   [⟨1, 'd' :: [], some ('c' :: []), 2, 't' :: [], 'o' :: []⟩,
    ⟨2, 'e' :: [], some ('c' :: []), 1, 'u' :: [], 'o' :: []⟩],
   [⟨1, 2, 'i' :: [], none⟩], 3, 3⟩

/-- The store the project-merge stage produces on `c8wstore`: project 2
merged into project 1, both threads re-pointed at project 1. -/
def c8wmid : Store :=
  ⟨[⟨1, 'x' :: [], 'a' :: [], 'n' :: [], none, none⟩],
   [⟨1, 'd' :: [], some ('c' :: []), 1, 't' :: [], 'o' :: []⟩,
    ⟨2, 'e' :: [], some ('c' :: []), 1, 'u' :: [], 'o' :: []⟩],
   [⟨1, 2, 'i' :: [], none⟩], 3, 3⟩

/-- C8 witness: the reconciliation theorem applied to a concrete store that
contains a duplicate project pair and a duplicate thread pair, with the
unique path index present and the merge stage completing. -/
theorem reconciliation_merges_duplicates_witness :
    (∀ x, c8wcanon (c8wcanon x) = c8wcanon x) ∧
    c8wstore.projects.Pairwise (fun x y => x.id < y.id) ∧
    c8wstore.threads.Pairwise (fun x y => x.id < y.id) ∧
    migrateCanonicalProjectPaths c8wcanon true c8wstore = Except.ok c8wmid ∧
    (dedupeCodexThreadMappings c8wmid).projects.Pairwise
      (fun x y => c8wcanon x.project_path ≠ c8wcanon y.project_path) ∧
    (dedupeCodexThreadMappings c8wmid).threads.Pairwise
      (fun x y => ∀ c, x.codex_thread_id = some c → y.codex_thread_id ≠ some c) :=
  ⟨fun _ => rfl, by decide, by decide, by decide,
   (reconciliation_merges_duplicates c8wcanon true c8wstore c8wmid (fun _ => rfl)
     (by decide) (by decide) (by decide)).2.1,
   (reconciliation_merges_duplicates c8wcanon true c8wstore c8wmid (fun _ => rfl)
     (by decide) (by decide) (by decide)).2.2.1⟩

/-! ## C2 — echo suppression (`MessageSync`, message-sync.ts) versus the
session-update delivery path (`DiscordBot.handleSessionUpdate`, client.ts).

A JS `Map` with string keys is modelled as an association list with at most
one binding per key: `mapGet` is `get`, `mapSet` is `set` (replace or
append), `mapDelete` is `delete`. -/

def mapGet {B : Type} : List (List Char × B) → List Char → Option B
  | [], _ => none
  | e :: rest, k => if e.1 = k then some e.2 else mapGet rest k

def mapSet {B : Type} : List (List Char × B) → List Char → B → List (List Char × B)
  | [], k, v => [(k, v)]
  | e :: rest, k, v => if e.1 = k then (k, v) :: rest else e :: mapSet rest k v

def mapDelete {B : Type} (m : List (List Char × B)) (k : List Char) :
    List (List Char × B) :=
  m.filter (fun e => decide (e.1 ≠ k))

/-- One entry of `MessageSync.recentWatcherEchoes` (message-sync.ts): the
expiry instant and the sets of normalized user/assistant texts remembered
for one Discord thread. -/
structure EchoEntry where
  expiresAt : Nat
  user : List (List Char)
  assistant : List (List Char)
deriving DecidableEq

inductive EchoRole where
  | user
  | assistant
deriving DecidableEq

/-- `MessageSync.normalizeText`: normalize newlines, trim, reject empty. -/
def normalizeText (text : List Char) : Option (List Char) :=
  let normalized := jsTrim (normNewlines text)
  if normalized.length > 0 then some normalized else none

/-- `MessageSync.pruneExpiredWatcherEchoes`: an entry is kept when it has
not expired or its thread is still processing. -/
def pruneExpiredWatcherEchoes (echoes : List (List Char × EchoEntry))
    (processing : List (List Char)) (now : Nat) :
    List (List Char × EchoEntry) :=
  echoes.filter (fun e => decide (now < e.2.expiresAt) || decide (e.1 ∈ processing))

/-- `MessageSync.shouldSuppressSessionEcho` (message-sync.ts 206-221): prune
expired entries, look the thread up, normalize the text and test membership
of the role's remembered set. -/
def shouldSuppressSessionEcho (echoes : List (List Char × EchoEntry))
    (processing : List (List Char)) (now : Nat)
    (discordThreadId : List Char) (role : EchoRole) (text : List Char) : Bool :=
  let pruned := pruneExpiredWatcherEchoes echoes processing now
  match mapGet pruned discordThreadId with
  | none => false
  | some entry =>
    match normalizeText text with
    | none => false
    | some normalized =>
      let knownTexts := match role with
        | EchoRole.user => entry.user
        | EchoRole.assistant => entry.assistant
      decide (normalized ∈ knownTexts)

/-! Session-event text extraction (session-scanner.ts).  JS property access
`x.k` on a `JSON.parse` value: only objects have the parsed keys, and with a
duplicate key the later assignment wins. -/

def objGetLast : List (List Char × Json) → List Char → Option Json
  | [], _ => none
  | f :: rest, key =>
    match objGetLast rest key with
    | some v => some v
    | none => if f.1 = key then some f.2 else none

def jsGet : Json → List Char → Option Json
  | Json.obj fields, key => objGetLast fields key
  | _, _ => none

/-- `x?.k` where `x` may already be `undefined` (`none`). -/
def optGet (v : Option Json) (key : List Char) : Option Json :=
  v.bind (fun j => jsGet j key)

/-- Strict equality of a possibly-undefined value with a string literal. -/
def jsIsStr (v : Option Json) (s : List Char) : Bool :=
  match v with
  | some (Json.str t) => decide (t = s)
  | _ => false

/-- JS `a ?? b`: `b` when `a` is `undefined` or `null`, else `a`. -/
def jsCoalesce : Option Json → Option Json → Option Json
  | some Json.null, b => b
  | none, b => b
  | some v, _ => some v

/-- `coerceText` (session-scanner.ts): non-strings give `null`; a string is
newline-normalized and trimmed, and an empty result gives `null`. -/
def coerceText : Json → Option (List Char)
  | Json.str s =>
    let normalized := jsTrim (normNewlines s)
    if normalized.length > 0 then some normalized else none
  | _ => none

def coerceTextOpt : Option Json → Option (List Char)
  | some j => coerceText j
  | none => none

/-- `for (const item of v)`: arrays yield their elements, strings their
characters (as one-character strings); other values are not iterable and
`for..of` throws, modelled as `none`. -/
def jsIterate : Json → Option (List Json)
  | Json.arr elems => some elems
  | Json.str s => some (s.map (fun c => Json.str [c]))
  | _ => none

/-- `parsed.payload.content ?? []` as iterated by the extraction loops. -/
def contentItemsOf (payload : Option Json) : Option (List Json) :=
  match optGet payload ('c' :: 'o' :: 'n' :: 't' :: 'e' :: 'n' :: 't' :: []) with
  | none => some []
  | some Json.null => some []
  | some v => jsIterate v

/-- `Array.isArray(v)` guard: the elements when `v` is an array. -/
def jsArrayElems : Option Json → Option (List Json)
  | some (Json.arr elems) => some elems
  | _ => none

/-- `coerceText(item?.text ?? item?.value ?? item?.message)`. -/
def itemText3 (item : Json) : Option (List Char) :=
  coerceTextOpt (jsCoalesce (jsGet item ('t' :: 'e' :: 'x' :: 't' :: []))
    (jsCoalesce (jsGet item ('v' :: 'a' :: 'l' :: 'u' :: 'e' :: []))
      (jsGet item ('m' :: 'e' :: 's' :: 's' :: 'a' :: 'g' :: 'e' :: []))))

/-- `coerceText(item?.text ?? item?.value ?? item)` (text_elements items). -/
def itemTextOrSelf (item : Json) : Option (List Char) :=
  coerceTextOpt (jsCoalesce (jsGet item ('t' :: 'e' :: 'x' :: 't' :: []))
    (jsCoalesce (jsGet item ('v' :: 'a' :: 'l' :: 'u' :: 'e' :: [])) (some item)))

/-- `uniqueTexts` (session-scanner.ts): drop repeats, keep first occurrences. -/
def uniqueTextsGo (seen : List (List Char)) : List (List Char) → List (List Char)
  | [] => []
  | t :: rest =>
    if t ∈ seen then uniqueTextsGo seen rest
    else t :: uniqueTextsGo (t :: seen) rest

def uniqueTexts (texts : List (List Char)) : List (List Char) :=
  uniqueTextsGo [] texts

/-- `extractAssistantTextsFromSessionEvent` (session-scanner.ts 285-318);
`none` is the `TypeError` thrown when a `response_item` assistant message
carries a non-iterable `content`, which the caller's `catch` turns into a
skipped line. -/
def extractAssistantTextsFromSessionEvent (parsed : Json) :
    Option (List (List Char)) :=
  let payload := jsGet parsed ('p' :: 'a' :: 'y' :: 'l' :: 'o' :: 'a' :: 'd' :: [])
  let tyKey : List Char := 't' :: 'y' :: 'p' :: 'e' :: []
  let part1 : Option (List (List Char)) :=
    if jsIsStr (jsGet parsed tyKey)
          ('r' :: 'e' :: 's' :: 'p' :: 'o' :: 'n' :: 's' :: 'e' :: '_' :: 'i' :: 't' :: 'e' :: 'm' :: [])
        && jsIsStr (optGet payload ('r' :: 'o' :: 'l' :: 'e' :: []))
          ('a' :: 's' :: 's' :: 'i' :: 's' :: 't' :: 'a' :: 'n' :: 't' :: [])
        && jsIsStr (optGet payload tyKey)
          ('m' :: 'e' :: 's' :: 's' :: 'a' :: 'g' :: 'e' :: []) then
      match contentItemsOf payload with
      | none => none
      | some items =>
        some (items.filterMap (fun item =>
          if jsIsStr (jsGet item tyKey)
                ('o' :: 'u' :: 't' :: 'p' :: 'u' :: 't' :: '_' :: 't' :: 'e' :: 'x' :: 't' :: [])
              || jsIsStr (jsGet item tyKey) ('t' :: 'e' :: 'x' :: 't' :: []) then
            itemText3 item
          else none))
    else some []
  match part1 with
  | none => none
  | some t1 =>
    let isEventMsg := jsIsStr (jsGet parsed tyKey)
      ('e' :: 'v' :: 'e' :: 'n' :: 't' :: '_' :: 'm' :: 's' :: 'g' :: [])
    let t2 :=
      if isEventMsg && jsIsStr (optGet payload tyKey)
          ('a' :: 'g' :: 'e' :: 'n' :: 't' :: '_' :: 'm' :: 'e' :: 's' :: 's' :: 'a' :: 'g' :: 'e' :: []) then
        (match coerceTextOpt (optGet payload
            ('m' :: 'e' :: 's' :: 's' :: 'a' :: 'g' :: 'e' :: [])) with
          | some d => [d]
          | none => []) ++
        (match jsArrayElems (optGet payload
            ('t' :: 'e' :: 'x' :: 't' :: '_' :: 'e' :: 'l' :: 'e' :: 'm' :: 'e' :: 'n' :: 't' :: 's' :: [])) with
          | some items => items.filterMap itemTextOrSelf
          | none => [])
      else []
    let t3 :=
      if isEventMsg && jsIsStr (optGet payload tyKey)
          ('t' :: 'a' :: 's' :: 'k' :: '_' :: 'c' :: 'o' :: 'm' :: 'p' :: 'l' :: 'e' :: 't' :: 'e' :: []) then
        match coerceTextOpt (optGet payload
            ('l' :: 'a' :: 's' :: 't' :: '_' :: 'a' :: 'g' :: 'e' :: 'n' :: 't' :: '_' :: 'm' :: 'e' :: 's' :: 's' :: 'a' :: 'g' :: 'e' :: [])) with
        | some d => [d]
        | none => []
      else []
    some (uniqueTexts (t1 ++ t2 ++ t3))

/-- True exactly when `extractUserTextsFromSessionEvent` (session-scanner.ts
255-283) would throw: its `response_item`/`user`/`message` branch iterates
`parsed.payload.content ?? []`, which throws on a non-iterable value; its
`event_msg` branch is guarded by `Array.isArray` and cannot throw.  The
caller's `catch` then skips the whole line before any assistant text is
examined. -/
def extractUserTextsThrowGuard (parsed : Json) : Bool :=
  let payload := jsGet parsed ('p' :: 'a' :: 'y' :: 'l' :: 'o' :: 'a' :: 'd' :: [])
  let tyKey : List Char := 't' :: 'y' :: 'p' :: 'e' :: []
  jsIsStr (jsGet parsed tyKey)
      ('r' :: 'e' :: 's' :: 'p' :: 'o' :: 'n' :: 's' :: 'e' :: '_' :: 'i' :: 't' :: 'e' :: 'm' :: [])
    && jsIsStr (optGet payload ('r' :: 'o' :: 'l' :: 'e' :: []))
      ('u' :: 's' :: 'e' :: 'r' :: [])
    && jsIsStr (optGet payload tyKey) ('m' :: 'e' :: 's' :: 's' :: 'a' :: 'g' :: 'e' :: [])
    && (contentItemsOf payload).isNone

/-- The `sendAssistant` closure of `DiscordBot.handleSessionUpdate`
(client.ts 318-408): trim, drop empties, dedup against the per-batch
`sentAssistantBatch` set, otherwise deliver. -/
def sendAssistantStep (sentAssistantBatch : List (List Char)) (text : List Char) :
    List (List Char) × List (List Char) :=
  let normalized := jsTrim text
  if normalized.length = 0 then (sentAssistantBatch, [])
  else if normalized ∈ sentAssistantBatch then (sentAssistantBatch, [])
  else (normalized :: sentAssistantBatch, [normalized])

def assistantBatchGo (batch : List (List Char)) :
    List (List Char) → List (List Char) × List (List Char)
  | [] => (batch, [])
  | t :: rest =>
    let s := sendAssistantStep batch t
    let r := assistantBatchGo s.1 rest
    (r.1, s.2 ++ r.2)

/-- The assistant-message deliveries of `DiscordBot.handleSessionUpdate` for
a session whose Thread mapping exists: per line, `JSON.parse` (a failure
skips the line), the user-extraction throw guard (a throw skips the line),
then every extracted assistant text through `sendAssistant`.  The body of
`handleSessionUpdate` never reads `recentWatcherEchoes`, and
`shouldSuppressSessionEcho` has no call site anywhere in the repository, so
no echo-suppression state appears in this function's arguments. -/
def handleSessionUpdateAssistantGo (batch : List (List Char)) :
    List (List Char) → List (List Char)
  | [] => []
  | line :: rest =>
    match jsonParse line with
    | none => handleSessionUpdateAssistantGo batch rest
    | some parsed =>
      if extractUserTextsThrowGuard parsed then
        handleSessionUpdateAssistantGo batch rest
      else
        match extractAssistantTextsFromSessionEvent parsed with
        | none => handleSessionUpdateAssistantGo batch rest
        | some texts =>
          let r := assistantBatchGo batch texts
          r.2 ++ handleSessionUpdateAssistantGo r.1 rest

def handleSessionUpdateAssistant (newLines : List (List Char)) :
    List (List Char) :=
  handleSessionUpdateAssistantGo [] newLines

/-- C2 (code bug): the spec requires `handleSessionUpdate` to consult the
per-thread echo-suppression set before delivering a tail-replayed text, but
the delivery path never consults it — `shouldSuppressSessionEcho` has no
call site in the repository.  Concretely: with an unexpired echo entry that
remembers the assistant text "hello" for thread "d" (so the suppressor,
were it asked, would answer `true`), the session-update path still delivers
"hello" from the replayed log line. -/
theorem c2_echo_set_not_consulted :
    shouldSuppressSessionEcho
        [("d".toList, ⟨100, [], ["hello".toList]⟩)] [] 0
        "d".toList EchoRole.assistant "hello".toList = true ∧
    handleSessionUpdateAssistant
        ["\x7b\"type\":\"event_msg\",\"payload\":\x7b\"type\":\"agent_message\",\"message\":\"hello\"\x7d\x7d".toList]
      = ["hello".toList] := by
  constructor
  · rfl
  · rfl

/-! ## C7 — buffering of session lines while the Thread mapping is missing
(`DiscordBot.bufferSessionLines` / `flushBufferedSessionLines`, client.ts
410-441).  `pendingSessionLines` is a JS `Map` from session id to the
queued lines. -/

def MAX_BUFFERED_SESSION_LINES : Nat := 2000

/-- `DiscordBot.bufferSessionLines`: append the new lines to the session's
queue, then `splice(0, overflow)` away the oldest lines beyond the cap. -/
def bufferSessionLines (pending : List (List Char × List (List Char)))
    (sessionId : List Char) (lines : List (List Char)) :
    List (List Char × List (List Char)) :=
  if lines.length = 0 then pending
  else
    let queued := (mapGet pending sessionId).getD [] ++ lines
    let overflow : Int := (queued.length : Int) - (MAX_BUFFERED_SESSION_LINES : Int)
    if overflow > 0 then
      mapSet pending sessionId (queued.drop overflow.toNat)
    else
      mapSet pending sessionId queued

/-- `DiscordBot.flushBufferedSessionLines`: when a non-empty queue exists,
delete the map entry first, then hand the buffered lines (in stored order)
to `handleSessionUpdate`; the second component is that handed-over list. -/
def flushBufferedSessionLines (pending : List (List Char × List (List Char)))
    (sessionId : List Char) :
    List (List Char × List (List Char)) × List (List Char) :=
  match mapGet pending sessionId with
  | none => (pending, [])
  | some buffered =>
    if buffered.length = 0 then (pending, [])
    else (mapDelete pending sessionId, buffered)

theorem mapGet_set_self {B : Type} (m : List (List Char × B)) (k : List Char)
    (v : B) : mapGet (mapSet m k v) k = some v := by
  induction m with
  | nil => simp [mapSet, mapGet]
  | cons e rest ih =>
    by_cases he : e.1 = k
    · simp [mapSet, mapGet, he]
    · simp [mapSet, mapGet, he, ih]

theorem mapGet_set_ne {B : Type} (m : List (List Char × B)) (k k' : List Char)
    (v : B) (h : k' ≠ k) : mapGet (mapSet m k v) k' = mapGet m k' := by
  induction m with
  | nil =>
    have hk : ¬ k = k' := fun he => h he.symm
    simp [mapSet, mapGet, hk]
  | cons e rest ih =>
    by_cases he : e.1 = k
    · rw [mapSet, if_pos he, mapGet, if_neg (fun hx => h hx.symm), mapGet,
        if_neg (he ▸ fun hx => h hx.symm)]
    · rw [mapSet, if_neg he]
      by_cases hk' : e.1 = k'
      · rw [mapGet, if_pos hk', mapGet, if_pos hk']
      · rw [mapGet, if_neg hk', mapGet, if_neg hk', ih]

theorem mapGet_delete_self {B : Type} (m : List (List Char × B))
    (k : List Char) : mapGet (mapDelete m k) k = none := by
  induction m with
  | nil => simp [mapDelete, mapGet]
  | cons e rest ih =>
    by_cases he : e.1 = k
    · simpa [mapDelete, he] using ih
    · rw [mapDelete] at ih ⊢
      simpa [List.filter_cons, he, mapGet] using ih

theorem mem_mapSet {B : Type} (m : List (List Char × B)) (k : List Char)
    (v : B) (e : List Char × B) (he : e ∈ mapSet m k v) :
    e = (k, v) ∨ e ∈ m := by
  induction m with
  | nil => simpa [mapSet] using he
  | cons f rest ih =>
    by_cases hf : f.1 = k
    · rw [mapSet, if_pos hf] at he
      rcases List.mem_cons.mp he with h | h
      · exact Or.inl h
      · exact Or.inr (List.mem_cons_of_mem _ h)
    · rw [mapSet, if_neg hf] at he
      rcases List.mem_cons.mp he with h | h
      · exact Or.inr (h ▸ List.mem_cons_self _ _)
      · rcases ih h with h' | h'
        · exact Or.inl h'
        · exact Or.inr (List.mem_cons_of_mem _ h')

/-- C7: the per-session buffer is bounded by the 2000-line cap; a non-empty
append leaves the queue equal to the old queue followed by the new lines
with exactly the overflowing oldest lines dropped (so retained lines keep
their original order); other sessions' queues are untouched; and a flush of
a non-empty queue removes the map entry (so a re-entrant update cannot see
it) and hands exactly the buffered lines, in order, to the normal update
path, while a flush with no queue delivers nothing and changes nothing. -/
theorem session_buffering_bounded_fifo
    (pending : List (List Char × List (List Char)))
    (sessionId : List Char) (lines : List (List Char))
    (hb : ∀ e ∈ pending, e.2.length ≤ MAX_BUFFERED_SESSION_LINES) :
    (∀ e ∈ bufferSessionLines pending sessionId lines,
        e.2.length ≤ MAX_BUFFERED_SESSION_LINES) ∧
    (lines ≠ [] →
      mapGet (bufferSessionLines pending sessionId lines) sessionId
        = some ((((mapGet pending sessionId).getD []) ++ lines).drop
            ((((mapGet pending sessionId).getD []).length + lines.length)
              - MAX_BUFFERED_SESSION_LINES))) ∧
    (∀ sid, sid ≠ sessionId →
      mapGet (bufferSessionLines pending sessionId lines) sid
        = mapGet pending sid) ∧
    (∀ buffered, mapGet pending sessionId = some buffered → buffered ≠ [] →
      flushBufferedSessionLines pending sessionId
          = (mapDelete pending sessionId, buffered) ∧
        mapGet (mapDelete pending sessionId) sessionId = none) ∧
    (mapGet pending sessionId = none →
      flushBufferedSessionLines pending sessionId = (pending, [])) := by
  refine ⟨?_, ?_, ?_, ?_, ?_⟩
  · intro e he
    rw [bufferSessionLines] at he
    by_cases hl : lines.length = 0
    · rw [if_pos hl] at he
      exact hb e he
    · rw [if_neg hl] at he
      dsimp only at he
      split_ifs at he with hover
      · rcases mem_mapSet _ _ _ _ he with h | h
        · rw [h]
          dsimp only
          rw [List.length_drop]
          omega
        · exact hb e h
      · rcases mem_mapSet _ _ _ _ he with h | h
        · rw [h]
          dsimp only
          rw [List.length_append] at hover ⊢
          omega
        · exact hb e h
  · intro hl
    have hl' : ¬ lines.length = 0 := by
      simpa using hl
    rw [bufferSessionLines, if_neg hl']
    dsimp only
    split_ifs with hover
    · have hovernat : (((mapGet pending sessionId).getD []).length + lines.length)
          - MAX_BUFFERED_SESSION_LINES
          = (((((mapGet pending sessionId).getD [] ++ lines).length : Int))
              - (MAX_BUFFERED_SESSION_LINES : Int)).toNat := by
        rw [List.length_append]
        omega
      rw [mapGet_set_self, hovernat]
    · rw [mapGet_set_self,
        show (((mapGet pending sessionId).getD []).length + lines.length)
            - MAX_BUFFERED_SESSION_LINES = 0 by
          rw [List.length_append] at hover
          omega,
        List.drop_zero]
  · intro sid hsid
    rw [bufferSessionLines]
    by_cases hl : lines.length = 0
    · rw [if_pos hl]
    · rw [if_neg hl]
      dsimp only
      split_ifs with hover
      · exact mapGet_set_ne _ _ _ _ hsid
      · exact mapGet_set_ne _ _ _ _ hsid
  · intro buffered hget hne
    have hne' : ¬ buffered.length = 0 := by
      simpa using hne
    refine ⟨?_, mapGet_delete_self _ _⟩
    rw [flushBufferedSessionLines, hget]
    simp [hne']
  · intro hget
    rw [flushBufferedSessionLines, hget]

/-- C7 witness: buffering two lines for a fresh session stores exactly
those two lines, and flushing then hands them over in order with the entry
removed. -/
theorem session_buffering_bounded_fifo_witness :
    mapGet (bufferSessionLines [] ('s' :: []) [('a' :: []), ('b' :: [])])
        ('s' :: []) = some [('a' :: []), ('b' :: [])] ∧
    flushBufferedSessionLines [(('s' :: []), [('a' :: []), ('b' :: [])])]
        ('s' :: []) = ([], [('a' :: []), ('b' :: [])]) := by
  constructor
  · have h := (session_buffering_bounded_fifo [] ('s' :: [])
      [('a' :: []), ('b' :: [])] (by intro e he; cases he)).2.1 (by decide)
    exact h.trans (by decide)
  · have h := (session_buffering_bounded_fifo
      [(('s' :: []), [('a' :: []), ('b' :: [])])] ('s' :: []) []
      (by decide)).2.2.2.1 [('a' :: []), ('b' :: [])] (by decide) (by decide)
    exact h.1.trans (by decide)

/-! ## C4 — what the watcher actually hands to the update handler.

`processUpdate` (session-watcher.ts 156-238) advances the offset and the
partial fragment unconditionally, but hands the batch to `onSessionUpdate`
only when the non-blank batch is non-empty AND the session meta is
available: either cached from an earlier call, or freshly obtained by
`parseSessionMeta` on the current file — a failure returns with the batch
dropped (the cursor state has already advanced, so those lines are never
delivered later). -/

/-- `parseSessionMeta` (session-scanner.ts 371-406) succeeds on the current
file content: the first line (before the first newline) is non-empty,
parses as JSON, is an object whose `type` is the string `session_meta`, and
whose `payload.cwd` is a string — a missing or null `payload` makes
`parsed.payload.id` throw, and a non-string `cwd` makes `resolve` inside
`canonicalizeProjectPath` throw, each caught as `null`; the `turn_context`
scan and the remaining field reads cannot fail. -/
def sessionMetaOk (content : List Char) : Bool :=
  let firstLine := (jsSplitNewline content).headD []
  if firstLine.isEmpty then false
  else
    match jsonParse firstLine with
    | none => false
    | some parsed =>
      jsIsStr (jsGet parsed ('t' :: 'y' :: 'p' :: 'e' :: []))
          ('s' :: 'e' :: 's' :: 's' :: 'i' :: 'o' :: 'n' :: '_' :: 'm' :: 'e' :: 't' :: 'a' :: []) &&
        (match optGet (jsGet parsed ('p' :: 'a' :: 'y' :: 'l' :: 'o' :: 'a' :: 'd' :: []))
            ('c' :: 'w' :: 'd' :: []) with
          | some (Json.str _) => true
          | _ => false)

/-- The watcher's per-file cursor plus whether `sessionCache` holds an entry
for the file. -/
structure DeliverState where
  offset : Nat
  part : List Char
  metaKnown : Bool
deriving DecidableEq

/-- One `processUpdate` call on the current file content: the cursor always
advances as `processUpdate` computes; the batch reaches the handler only
when it is non-empty and the meta is cached or parses now (caching it). -/
def processDelivery (st : DeliverState) (content : List Char) :
    DeliverState × List (List Char) :=
  let r := processUpdate st.offset st.part content
  if r.emitted.isEmpty then (⟨r.offset, r.part, st.metaKnown⟩, [])
  else if st.metaKnown then (⟨r.offset, r.part, true⟩, r.emitted)
  else if sessionMetaOk content then (⟨r.offset, r.part, true⟩, r.emitted)
  else (⟨r.offset, r.part, false⟩, [])

def runDeliveriesGo (content : List Char) (st : DeliverState) :
    List (List Char) → List (List Char)
  | [] => []
  | ch :: rest =>
    let p := processDelivery st (content ++ ch)
    p.2 ++ runDeliveriesGo (content ++ ch) p.1 rest

/-- All lines handed to the update handler over a whole append sequence,
starting from a fresh watcher (offset 0, no partial, nothing cached). -/
def runDeliveries (chunks : List (List Char)) : List (List Char) :=
  runDeliveriesGo [] ⟨0, [], false⟩ chunks

theorem runDeliveriesGo_eq (chunks : List (List Char)) :
    ∀ (content : List Char) (st : DeliverState),
    (∀ i < chunks.length,
      sessionMetaOk (content ++ (chunks.take (i + 1)).flatten) = true) →
    runDeliveriesGo content st chunks = runAppendsGo content st.offset st.part chunks := by
  induction chunks with
  | nil =>
    intro content st M
    rfl
  | cons ch rest ih =>
    intro content st M
    have hM0 : sessionMetaOk (content ++ ch) = true := by
      have h := M 0 (by simp)
      simpa using h
    have Mrest : ∀ i < rest.length,
        sessionMetaOk ((content ++ ch) ++ (rest.take (i + 1)).flatten) = true := by
      intro i hi
      have h := M (i + 1) (by simpa using hi)
      simpa [List.flatten_cons, List.append_assoc] using h
    show (processDelivery st (content ++ ch)).2
        ++ runDeliveriesGo (content ++ ch) (processDelivery st (content ++ ch)).1 rest
      = (processUpdate st.offset st.part (content ++ ch)).emitted
        ++ runAppendsGo (content ++ ch)
            (processUpdate st.offset st.part (content ++ ch)).offset
            (processUpdate st.offset st.part (content ++ ch)).part rest
    rw [processDelivery]
    by_cases he : (processUpdate st.offset st.part (content ++ ch)).emitted.isEmpty
    · rw [if_pos he, List.isEmpty_iff.mp he]
      exact ih (content ++ ch) _ Mrest
    · rw [if_neg he]
      by_cases hmk : st.metaKnown
      · rw [if_pos hmk]
        rw [ih (content ++ ch) _ Mrest]
      · rw [if_neg hmk, if_pos hM0]
        rw [ih (content ++ ch) _ Mrest]

/-- C4 (amended): write a file as any sequence of appended chunks with a
`processUpdate` after each append.  Provided (i) no intermediate trailing
fragment parses as a complete JSON value (the tailer early-emits such
fragments, splitting one file line into several emissions) and (ii) the
session meta parses at every stage (otherwise batches are dropped while the
cursor still advances, losing lines for good), the lines handed to the
update handler over the whole run are exactly the non-blank complete lines
of the final content, each delivered once, in file order. -/
theorem tailer_appends_exactly_once (chunks : List (List Char))
    (H : ∀ i < chunks.length,
      (linesAndRest ((chunks.take (i + 1)).flatten)).2 = [] ∨
      jsonOk (linesAndRest ((chunks.take (i + 1)).flatten)).2 = false)
    (M : ∀ i < chunks.length,
      sessionMetaOk ((chunks.take (i + 1)).flatten) = true) :
    runDeliveries chunks
      = (linesAndRest chunks.flatten).1.filter (fun l => !isBlank l) := by
  have h1 : runDeliveries chunks = runAppends chunks :=
    runDeliveriesGo_eq chunks [] ⟨0, [], false⟩ M
  rw [h1]
  exact runAppendsGo_spec chunks [] H

/-- The `session_meta` first line used by the C4 counterexample and witness. -/
def c4metaLine : List Char :=
  "\x7b\"type\":\"session_meta\",\"payload\":\x7b\"cwd\":\"/p\"\x7d\x7d".toList

/-- C4 counterexample: two refutations of the unconditional claim.  (1) The
file `hello\n` written in one chunk: the final content has the single
complete non-blank line `hello`, but nothing is ever handed to the update
handler because the file has no `session_meta` first line — and the
offset/partial state advances anyway, so the line is lost for good.  (2)
With a valid `session_meta` first line, the final file line `123456`
appended as `123` then `456\n` is handed over as the two lines `123` and
`456`: the trailing fragment `123` parses as a JSON number and is
early-emitted.  In neither run does the delivered sequence equal the
non-blank complete lines of the final content, each exactly once. -/
theorem c4_counterexample :
    runDeliveries ["hello\n".toList] = [] ∧
    (linesAndRest ("hello\n".toList)).1.filter (fun l => !isBlank l)
      = ["hello".toList] ∧
    runDeliveries [c4metaLine ++ '\n' :: "123".toList, "456\n".toList]
      = [c4metaLine, "123".toList, "456".toList] ∧
    (linesAndRest ((c4metaLine ++ '\n' :: "123".toList) ++ "456\n".toList)).1.filter
        (fun l => !isBlank l)
      = [c4metaLine, "123456".toList] := by
  refine ⟨by decide, by decide, by decide, by decide⟩

/-- C4 witness: a `session_meta` line, then `a\n`, then `b`; the meta parses
at every stage, no intermediate fragment is valid JSON, and the run hands
over exactly the two complete lines. -/
theorem tailer_appends_exactly_once_witness :
    (∀ i < ([c4metaLine ++ ['\n'], "a\n".toList, "b".toList] : List (List Char)).length,
      (linesAndRest ((([c4metaLine ++ ['\n'], "a\n".toList, "b".toList]
          : List (List Char)).take (i + 1)).flatten)).2 = [] ∨
      jsonOk (linesAndRest ((([c4metaLine ++ ['\n'], "a\n".toList, "b".toList]
          : List (List Char)).take (i + 1)).flatten)).2 = false) ∧
    (∀ i < ([c4metaLine ++ ['\n'], "a\n".toList, "b".toList] : List (List Char)).length,
      sessionMetaOk ((([c4metaLine ++ ['\n'], "a\n".toList, "b".toList]
          : List (List Char)).take (i + 1)).flatten) = true) ∧
    runDeliveries [c4metaLine ++ ['\n'], "a\n".toList, "b".toList]
      = (linesAndRest ([c4metaLine ++ ['\n'], "a\n".toList, "b".toList]
          : List (List Char)).flatten).1.filter (fun l => !isBlank l) :=
  ⟨by decide, by decide,
   tailer_appends_exactly_once [c4metaLine ++ ['\n'], "a\n".toList, "b".toList]
     (by decide) (by decide)⟩

end CodexDiscord
